import Mathlib

/-!
# Verification of the histosketch streaming histogram sketch

The repository implements the Ben-Haim/Tom-Tov streaming histogram sketch: a
fixed-capacity ordered list of centroids `(value, count)` supporting online
insertion (`Add`/`AddMany`), merging of two sketches (`Merge`), trapezoidal
cumulative-count queries (`Sum`), quantile queries (`Quantile`), and an optimal
dynamic-programming constructor from a sample (`NewFromSample`).

The core implementation file of the repository is not present in the source
tree (only the README describing the algorithms and the `graphs` command-line
caller are), so the definitions below are modelled from the specification's
description of each algorithm, over exact rational arithmetic in place of
`float64`.
-/

namespace Histosketch

/-- A centroid: an average `value` and a point `count`.  Modelled from the
spec: "Centroid — the atomic unit: an average value and a point count"
(`float64` fields modelled as `ℚ`). -/
structure Centroid where
  value : ℚ
  count : ℚ
  deriving DecidableEq, Repr

/-- A sketch: an ordered list of centroids together with a fixed capacity.
Modelled from the spec: "Centroid List (Sketch): items: ordered sequence of
Centroid ...; capacity: positive integer K, fixed at construction". -/
structure Sketch where
  items : List Centroid
  capacity : ℕ
  deriving DecidableEq, Repr

/-- Modelled from the spec: `New` — "A constructor taking a capacity `K ≥ 1`,
returning an empty Sketch" (capacity `< 1` fails fast at construction, which we
model by restricting theorems to `1 ≤ capacity`). -/
def mkSketch (k : ℕ) : Sketch :=
  ⟨[], k⟩

/-- Merging two centroids.  Modelled from the spec: "Merging centroids
`(v1,c1)` and `(v2,c2)` yields `((v1·c1 + v2·c2)/(c1+c2), c1+c2)`". -/
def mergePair (c d : Centroid) : Centroid :=
  ⟨(c.value * c.count + d.value * d.count) / (c.count + d.count), c.count + d.count⟩

/-- Sorted insertion of a centroid.  Modelled from the spec: "insert it into
`items` preserving sort order by `value`; equal-value ties may be merged
immediately with an existing equal-value centroid", the optimization the spec
sanctions and that the README's `AddMany` contract ("Same effect as two calls
to s.Add") relies on. -/
def insertC (c : Centroid) : List Centroid → List Centroid
  | [] => [c]
  | d :: ds =>
    if c.value < d.value then c :: d :: ds
    else if c.value = d.value then ⟨d.value, d.count + c.count⟩ :: ds
    else d :: insertC c ds

/-- The list of gaps `|valueᵢ₊₁ − valueᵢ|` between adjacent centroids,
used by the overflow-merge scan. -/
def gapsL (l : List Centroid) : List ℚ :=
  List.zipWith (fun p q => |q.value - p.value|) l l.tail

/-- Minimum of the nonempty list `x :: xs`. -/
def minNE (x : ℚ) : List ℚ → ℚ
  | [] => x
  | y :: ys => min x (minNE y ys)

/-- One overflow-merge step.  Modelled from the spec: "scan all adjacent
pairs once, compute `|valueᵢ₊₁ − valueᵢ|` for each, and merge the pair with
the smallest gap.  Tie-break: choose the leftmost (lowest index) minimal-gap
pair."  The first pair whose gap is `≤` the minimum of all later gaps is the
leftmost minimal-gap pair. -/
def mergeClosest : List Centroid → List Centroid
  | c :: d :: e :: rest =>
    if |d.value - c.value| ≤ minNE |e.value - d.value| (gapsL (e :: rest)) then
      mergePair c d :: e :: rest
    else c :: mergeClosest (d :: e :: rest)
  | [c, d] => [mergePair c d]
  | l => l

/-- The conditional overflow step after an insertion.  Modelled from the
spec: "If `len(items) > capacity`, ... merge the pair with the smallest
gap". -/
def overflow (cap : ℕ) (l : List Centroid) : List Centroid :=
  if cap < l.length then mergeClosest l else l

/-- `Add`.  Modelled from the spec: "`Add(x: float64)` inserts one
observation": construct a singleton centroid `(x, 1)`, insert it preserving
sort order, then perform the overflow-merge step if the capacity is
exceeded. -/
def add (s : Sketch) (x : ℚ) : Sketch :=
  ⟨overflow s.capacity (insertC ⟨x, 1⟩ s.items), s.capacity⟩

/-- `AddMany`.  Modelled from the spec: "directly inserting a centroid of
count `n` and performing at most one overflow-merge step". -/
def addMany (s : Sketch) (x : ℚ) (n : ℕ) : Sketch :=
  ⟨overflow s.capacity (insertC ⟨x, (n : ℚ)⟩ s.items), s.capacity⟩

/-- Total count of a centroid list ("Derived: `total = sum of counts`"). -/
def totalL (l : List Centroid) : ℚ :=
  (l.map Centroid.count).sum

/-- Total count of a sketch. -/
def totalS (s : Sketch) : ℚ :=
  totalL s.items

/-- Merge of two sorted centroid lists by value.  Modelled from the spec
(§4.3): "merge two already-sorted sequences". -/
def mergeLists : List Centroid → List Centroid → List Centroid
  | [], l => l
  | l, [] => l
  | c :: cs, d :: ds =>
    if c.value ≤ d.value then c :: mergeLists cs (d :: ds)
    else d :: mergeLists (c :: cs) ds
  termination_by l₁ l₂ => l₁.length + l₂.length

/-- Fuelled repetition of the overflow-merge step.  Modelled from the spec
(§4.3): "Repeatedly apply the overflow-merge step from §4.1 ... until the
combined length is ≤ the receiver's capacity."  Fuel equal to the initial
list length suffices: each step on a list longer than the capacity (≥ 1)
shortens it by one. -/
def compressN : ℕ → ℕ → List Centroid → List Centroid
  | 0, _, l => l
  | fuel + 1, cap, l =>
    if l.length ≤ cap then l else compressN fuel cap (mergeClosest l)

/-- `Merge`.  Modelled from the spec (§4.3): merge the two sorted centroid
sequences, then repeatedly overflow-merge down to the receiver's capacity;
"Receiver's capacity is authoritative for the result". -/
def mergeS (s o : Sketch) : Sketch :=
  let l := mergeLists s.items o.items
  ⟨compressN l.length s.capacity l, s.capacity⟩

/-- Minimum stored value ("`min = items[0].value`"), defaulting to `0` on an
empty sketch. -/
def minS (s : Sketch) : ℚ :=
  (s.items.head?.map Centroid.value).getD 0

/-- Maximum stored value ("`max = items[last].value`"), defaulting to `0` on
an empty sketch. -/
def maxS (s : Sketch) : ℚ :=
  (s.items.getLast?.map Centroid.value).getD 0

/-- The trapezoid-area contribution of the interval between bordering
centroids `c` and `d` up to threshold `b`.  Modelled from the spec (§4.2):
`mb = cᵢ + (cᵢ₊₁ − cᵢ)·(b − vᵢ)/(vᵢ₊₁ − vᵢ)` and
`s = (cᵢ + mb)/2 · (b − vᵢ)/(vᵢ₊₁ − vᵢ)`. -/
def trap (c d : Centroid) (b : ℚ) : ℚ :=
  let t := (b - c.value) / (d.value - c.value)
  let mb := c.count + (d.count - c.count) * t
  (c.count + mb) / 2 * t

/-- The walk of `Sum` over the centroid list, accumulating whole counts of
centroids strictly before the bordering pair, then `cᵢ/2` plus the trapezoid
area at the bordering pair (the pair with `vᵢ ≤ b < vᵢ₊₁`).  The caller
guarantees `head.value ≤ b`. -/
def sumFrom (b : ℚ) : List Centroid → ℚ
  | [] => 0
  | [c] => c.count
  | c :: d :: rest =>
    if b < d.value then c.count / 2 + trap c d b
    else c.count + sumFrom b (d :: rest)

/-- `Sum`.  Modelled from the spec (§4.2): 0 on an empty sketch; 0 when
`b < min`; the total when `b ≥ max` (the walk runs off the end); otherwise
the prefix counts plus `cᵢ/2` plus the bordering trapezoid area. -/
def sumQ (s : Sketch) (b : ℚ) : ℚ :=
  match s.items with
  | [] => 0
  | c :: rest => if b < c.value then 0 else sumFrom b (c :: rest)

/-- A mutating operation on a sketch: `Add`, `AddMany`, or `Merge` with some
other sketch. -/
inductive Op where
  | opAdd (x : ℚ)
  | opAddMany (x : ℚ) (n : ℕ)
  | opMerge (o : Sketch)

/-- Apply one operation to a sketch. -/
def applyOp (s : Sketch) : Op → Sketch
  | .opAdd x => add s x
  | .opAddMany x n => addMany s x n
  | .opMerge o => mergeS s o

/-- Run a sequence of operations on a sketch. -/
def runOps (s : Sketch) (ops : List Op) : Sketch :=
  ops.foldl applyOp s

/-- Well-formedness of a centroid list: the values are non-decreasing and
every count is at least 1 (the spec's invariants "items ... non-decreasing
by value" and "count ≥ 1"). -/
def WFL (l : List Centroid) : Prop :=
  l.Pairwise (fun c d => c.value ≤ d.value) ∧ ∀ c ∈ l, (1 : ℚ) ≤ c.count

/-- Run a sequence of plain `Add` calls. -/
def runAdds (s : Sketch) (xs : List ℚ) : Sketch :=
  xs.foldl add s

/-- The in-interval solve of `Quantile`.  Modelled from the spec (§4.2): the
trapezoid partial-area formula from `Sum` solved for `b` is "a quadratic in
`(b − vᵢ)`"; with `t = (b − vᵢ)/(vᵢ₊₁ − vᵢ)` the equation is
`cᵢ·t + (cᵢ₊₁ − cᵢ)·t²/2 = r`, whose root in `[0,1]` is
`(√(cᵢ² + 2(cᵢ₊₁ − cᵢ)r) − cᵢ)/(cᵢ₊₁ − cᵢ)`; "if `A ≈ 0` fall back to the
linear solution" (`r/cᵢ` when the two counts are equal). -/
noncomputable def solveT (cc dc r : ℚ) : ℝ :=
  if cc = dc then (r : ℝ) / (cc : ℝ)
  else (Real.sqrt ((cc : ℝ) ^ 2 + 2 * ((dc : ℝ) - (cc : ℝ)) * (r : ℝ)) - (cc : ℝ)) /
    ((dc : ℝ) - (cc : ℝ))

/-- The walk of `Quantile` over the centroid list.  Modelled from the spec
(§4.2): "Walk cumulative counts, accumulating `cᵢ/2 + cᵢ₊₁/2` per interval
analogous to Sum's trapezoid, to find the bordering pair whose interval
contains `s_target`", then solve within that interval; a remaining target
beyond the last interval clamps to the maximum stored value. -/
noncomputable def quantileWalk : ℚ → List Centroid → ℝ
  | _, [] => 0
  | _, [c] => (c.value : ℝ)
  | r, c :: d :: rest =>
    if r ≤ (c.count + d.count) / 2 then
      (c.value : ℝ) + ((d.value : ℝ) - (c.value : ℝ)) * solveT c.count d.count r
    else quantileWalk (r - (c.count + d.count) / 2) (d :: rest)

/-- `Quantile`.  Modelled from the spec (§4.2): "Compute target absolute
count `s_target = q · total`" and walk the intervals; a target not beyond
the first half-count clamps to the minimum stored value ("`q = 0` returns
`min`"). -/
noncomputable def quantile (s : Sketch) (q : ℚ) : ℝ :=
  match s.items with
  | [] => 0
  | c :: rest =>
    if q * totalS s ≤ c.count / 2 then (c.value : ℝ)
    else quantileWalk (q * totalS s - c.count / 2) (c :: rest)

/-! ### The optimal decomposition builder (`NewFromSample`) -/

/-- Prefix sum of the first `i` sample values ("Precompute prefix sums of
values"). -/
def prefixSum (xs : List ℚ) (i : ℕ) : ℚ := (xs.take i).sum

/-- Prefix sum of the first `i` squared sample values ("... and of squared
values"). -/
def prefixSumSq (xs : List ℚ) (i : ℕ) : ℚ := ((xs.take i).map (fun x => x ^ 2)).sum

/-- Cost of the contiguous interval `(a, b]` (points `a+1..b`) of the sorted
sample.  Modelled from the spec (§4.4): "the cost of any contiguous interval
`(a, b]` — sum of squared deviations from that interval's mean — is
computable in O(1) from the two prefix sums":
`(S2[b] − S2[a]) − (S1[b] − S1[a])²/(b − a)`. -/
def cost (xs : List ℚ) (a b : ℕ) : ℚ :=
  (prefixSumSq xs b - prefixSumSq xs a) -
    (prefixSum xs b - prefixSum xs a) ^ 2 / ((b : ℚ) - (a : ℚ))

/-- The minimum of a list of rationals, as an `Option` (`none` = no
candidate = the spec's `∞`). -/
def minQO : List ℚ → Option ℚ
  | [] => none
  | x :: xs => some (minNE x xs)

/-- The dynamic program of `NewFromSample`.  Modelled from the spec (§4.4):
`dp[i][j]` = minimum achievable cost using the first `i` points split into
`j` contiguous groups; base case `dp[0][0] = 0`, `dp[i][0] = ∞` for `i > 0`;
recurrence `dp[i][j] = min over a in [j−1, i−1] of dp[a][j−1] + cost(a, i)`. -/
def dp (xs : List ℚ) : ℕ → ℕ → Option ℚ
  | i, 0 => if i = 0 then some 0 else none
  | i, j + 1 =>
    minQO ((List.range i).filterMap fun a =>
      if j ≤ a then (dp xs a j).map (fun v => v + cost xs a i) else none)

/-- First index among the candidate pairs whose cost equals the minimum `m`
(the minimizing `a`, lowest index on ties). -/
def firstWith (m : ℚ) : List (ℕ × ℚ) → Option ℕ
  | [] => none
  | p :: ps => if p.2 = m then some p.1 else firstWith m ps

/-- The traceback pointer.  Modelled from the spec (§4.4): "Record the
minimizing `a` as a traceback pointer `choice[i][j]`". -/
def choice (xs : List ℚ) (i : ℕ) : ℕ → Option ℕ
  | 0 => none
  | j + 1 =>
    let cands := (List.range i).filterMap fun a =>
      if j ≤ a then (dp xs a j).map (fun v => (a, v + cost xs a i)) else none
    match minQO (cands.map Prod.snd) with
    | none => none
    | some m => firstWith m cands

/-- Traceback of the interval boundaries.  Modelled from the spec (§4.4):
"Traceback from `dp[n][k]` ... through `choice` to recover the k interval
boundaries". -/
def traceback (xs : List ℚ) : ℕ → ℕ → List ℕ
  | _, 0 => []
  | i, j + 1 =>
    match choice xs i (j + 1) with
    | none => []
    | some a => traceback xs a j ++ [a]

/-- The centroid of the interval `(a, b]` of the sorted sample: "for each
resulting interval compute `(mean, count)` as the final centroid". -/
def segCentroid (xs : List ℚ) (a b : ℕ) : Centroid :=
  ⟨(prefixSum xs b - prefixSum xs a) / ((b : ℚ) - (a : ℚ)), (b : ℚ) - (a : ℚ)⟩

/-- Sorted insertion of a rational into a sorted list (used to sort the
sample). -/
def insertSorted (x : ℚ) : List ℚ → List ℚ
  | [] => [x]
  | y :: ys => if x ≤ y then x :: y :: ys else y :: insertSorted x ys

/-- Insertion sort of the sample ("`sample` is sorted ascending before
computation (sort if not already)"). -/
def sortQ (l : List ℚ) : List ℚ := l.foldr insertSorted []

/-- `NewFromSample` / `BuildOptimal`.  Modelled from the spec (§4.4): sort
the sample, run the dynamic program with effective cluster count
`min(k, len(sample))`, trace back the boundaries and emit one `(mean,
count)` centroid per interval; the resulting sketch has capacity `k`. -/
def buildOptimal (sample : List ℚ) (k : ℕ) : Sketch :=
  let xs := sortQ sample
  let n := xs.length
  let bs := traceback xs n (min k n) ++ [n]
  ⟨(bs.zip bs.tail).map fun p => segCentroid xs p.1 p.2, k⟩

/-! ### Length lemmas -/

theorem insertC_length_le (c : Centroid) (l : List Centroid) :
    (insertC c l).length ≤ l.length + 1 := by
  induction l with
  | nil => simp [insertC]
  | cons d ds ih =>
    simp only [insertC]
    split
    · simp
    · split
      · simp
      · simpa using Nat.succ_le_succ ih

theorem mergeClosest_length :
    ∀ l : List Centroid, 2 ≤ l.length → (mergeClosest l).length + 1 = l.length
  | c :: d :: e :: rest, _ => by
    rw [mergeClosest]
    split
    · simp
    · have h := mergeClosest_length (d :: e :: rest) (by simp)
      simp only [List.length_cons] at h ⊢
      omega
  | [c, d], _ => by simp [mergeClosest]

theorem overflow_length_le {cap : ℕ} {l : List Centroid} (hcap : 1 ≤ cap)
    (h : l.length ≤ cap + 1) : (overflow cap l).length ≤ cap := by
  unfold overflow
  split
  · have h2 : 2 ≤ l.length := by omega
    have := mergeClosest_length l h2
    omega
  · omega

theorem compressN_length {cap : ℕ} (hcap : 1 ≤ cap) :
    ∀ (fuel : ℕ) (l : List Centroid), l.length ≤ cap + fuel →
      (compressN fuel cap l).length ≤ cap := by
  intro fuel
  induction fuel with
  | zero => intro l h; simpa [compressN] using h
  | succ n ih =>
    intro l h
    rw [compressN]
    split
    · assumption
    · rename_i hlen
      have h2 : 2 ≤ l.length := by omega
      have := mergeClosest_length l h2
      exact ih _ (by omega)

/-! ### Total-count lemmas -/

theorem totalL_cons (c : Centroid) (l : List Centroid) :
    totalL (c :: l) = c.count + totalL l := by
  simp [totalL]

theorem totalL_insertC (c : Centroid) (l : List Centroid) :
    totalL (insertC c l) = totalL l + c.count := by
  induction l with
  | nil => simp [insertC, totalL]
  | cons d ds ih =>
    simp only [insertC]
    split
    · simp [totalL]; ring
    · split
      · simp [totalL]; ring
      · simp only [totalL_cons, ih]; ring

theorem totalL_mergeClosest : ∀ l : List Centroid, totalL (mergeClosest l) = totalL l
  | c :: d :: e :: rest => by
    rw [mergeClosest]
    split
    · simp [totalL_cons, mergePair]; ring
    · have h := totalL_mergeClosest (d :: e :: rest)
      simp only [totalL_cons] at h ⊢
      rw [h]
  | [c, d] => by simp [mergeClosest, totalL, mergePair]; try ring
  | [] => rfl
  | [c] => rfl

theorem totalL_overflow (cap : ℕ) (l : List Centroid) :
    totalL (overflow cap l) = totalL l := by
  unfold overflow
  split
  · exact totalL_mergeClosest l
  · rfl

theorem totalL_mergeLists : ∀ l₁ l₂ : List Centroid,
    totalL (mergeLists l₁ l₂) = totalL l₁ + totalL l₂
  | [], l => by simp [mergeLists, totalL]
  | c :: cs, [] => by simp [mergeLists, totalL]
  | c :: cs, d :: ds => by
    rw [mergeLists]
    split
    · have h := totalL_mergeLists cs (d :: ds)
      simp only [totalL_cons] at *
      rw [h]; ring
    · have h := totalL_mergeLists (c :: cs) ds
      simp only [totalL_cons] at *
      rw [h]; ring
  termination_by l₁ l₂ => l₁.length + l₂.length

theorem totalL_compressN : ∀ (fuel cap : ℕ) (l : List Centroid),
    totalL (compressN fuel cap l) = totalL l
  | 0, _, _ => rfl
  | fuel + 1, cap, l => by
    rw [compressN]
    split
    · rfl
    · rw [totalL_compressN fuel cap (mergeClosest l), totalL_mergeClosest]

theorem totalS_add (s : Sketch) (x : ℚ) : totalS (add s x) = totalS s + 1 := by
  simp [totalS, add, totalL_overflow, totalL_insertC]

theorem totalS_addMany (s : Sketch) (x : ℚ) (n : ℕ) :
    totalS (addMany s x n) = totalS s + n := by
  simp [totalS, addMany, totalL_overflow, totalL_insertC]

theorem totalS_mergeS (s o : Sketch) : totalS (mergeS s o) = totalS s + totalS o := by
  simp [totalS, mergeS, totalL_compressN, totalL_mergeLists]

theorem totalS_runAdds : ∀ (xs : List ℚ) (s : Sketch),
    totalS (runAdds s xs) = totalS s + xs.length
  | [], s => by simp [runAdds]
  | x :: xs, s => by
    have h := totalS_runAdds xs (add s x)
    simp only [runAdds, List.foldl_cons] at h ⊢
    rw [h, totalS_add]
    simp only [List.length_cons]
    push_cast
    ring

/-! ### Capacity invariant -/

theorem applyOp_capacity (s : Sketch) (op : Op) : (applyOp s op).capacity = s.capacity := by
  cases op <;> rfl

theorem applyOp_length {s : Sketch} (h1 : 1 ≤ s.capacity)
    (h : s.items.length ≤ s.capacity) (op : Op) :
    (applyOp s op).items.length ≤ s.capacity := by
  cases op with
  | opAdd x =>
    exact overflow_length_le h1 (le_trans (insertC_length_le _ _) (by omega))
  | opAddMany x n =>
    exact overflow_length_le h1 (le_trans (insertC_length_le _ _) (by omega))
  | opMerge o =>
    exact compressN_length h1 _ _ (by omega)

theorem runOps_invariant (K : ℕ) (hK : 1 ≤ K) :
    ∀ (ops : List Op) (s : Sketch), s.capacity = K → s.items.length ≤ K →
      (runOps s ops).items.length ≤ K
  | [], s => fun _ h => h
  | op :: ops, s => by
    intro hc h
    have hcap : (applyOp s op).capacity = K := by rw [applyOp_capacity]; exact hc
    have hlen : (applyOp s op).items.length ≤ K := by
      rw [← hc]; exact applyOp_length (by omega) (by omega) op
    simpa [runOps] using runOps_invariant K hK ops (applyOp s op) hcap hlen

/-- C1: for every sketch constructed with capacity `K ≥ 1` and every finite
sequence of `Add`, `AddMany` and `Merge` operations applied to it, the number
of centroids in the sketch is at most `K` after each operation returns (every
prefix of the sequence is itself a sequence of operations, so the bound holds
at every intermediate state). -/
theorem C1_capacity_invariant (K : ℕ) (hK : 1 ≤ K) (ops : List Op) :
    (runOps (mkSketch K) ops).items.length ≤ K :=
  runOps_invariant K hK ops (mkSketch K) rfl (by simp [mkSketch])

theorem C1_capacity_invariant_witness :
    1 ≤ 2 ∧
      (runOps (mkSketch 2)
        [.opAdd 1, .opAddMany 2 3, .opMerge ⟨[⟨5, 1⟩, ⟨7, 2⟩], 2⟩]).items.length ≤ 2 :=
  ⟨by decide,
    C1_capacity_invariant 2 (by decide)
      [.opAdd 1, .opAddMany 2 3, .opMerge ⟨[⟨5, 1⟩, ⟨7, 2⟩], 2⟩]⟩

/-- C2: starting from a freshly constructed sketch, after any sequence of `n`
`Add` calls the total count (sum of all centroid counts) equals `n`; and for
any two sketches, the total after `Merge` is the sum of the totals. -/
theorem C2_count_conservation :
    (∀ (K : ℕ) (xs : List ℚ), totalS (runAdds (mkSketch K) xs) = (xs.length : ℚ)) ∧
      ∀ s o : Sketch, totalS (mergeS s o) = totalS s + totalS o := by
  constructor
  · intro K xs
    rw [totalS_runAdds]
    simp [totalS, mkSketch, totalL]
  · exact totalS_mergeS

/-! ### The concrete capacity-2 scenario -/

/-- C4: on a sketch of capacity 2, `Add(1)`, `Add(2)`, `Add(3)` in that order
yields exactly the centroid list `[(3/2, 2), (3, 1)]`: inserting 3 overflows,
the two adjacent gaps are both 1, and the leftmost pair `(1,1),(2,1)` merges to
`((1·1+2·1)/2, 2) = (3/2, 2)`.  In that state `Sum(3) = 3` (the total count)
and `Sum(0) = 0`. -/
theorem C4_concrete_scenario :
    add (add (add (mkSketch 2) 1) 2) 3 = ⟨[⟨3/2, 2⟩, ⟨3, 1⟩], 2⟩ ∧
      sumQ ⟨[⟨3/2, 2⟩, ⟨3, 1⟩], 2⟩ 3 = 3 ∧ sumQ ⟨[⟨3/2, 2⟩, ⟨3, 1⟩], 2⟩ 0 = 0 := by
  refine ⟨?_, ?_, ?_⟩
  · norm_num [add, mkSketch, insertC, overflow, mergeClosest, gapsL, minNE, mergePair]
  · norm_num [sumQ, sumFrom]
  · norm_num [sumQ]

/-! ### Merge with an empty sketch -/

theorem mergeLists_nil_right : ∀ l : List Centroid, mergeLists l [] = l
  | [] => by rw [mergeLists]
  | c :: cs => by simp [mergeLists]

theorem compressN_of_le {cap : ℕ} {l : List Centroid} (h : l.length ≤ cap) :
    ∀ fuel, compressN fuel cap l = l
  | 0 => rfl
  | fuel + 1 => by rw [compressN, if_pos h]

/-- C9: merging a sketch with an empty sketch of equal capacity leaves its
centroid list unchanged, centroid for centroid (for any sketch satisfying the
capacity invariant `len(items) ≤ capacity`). -/
theorem C9_merge_empty_identity (s : Sketch) (h : s.items.length ≤ s.capacity) :
    mergeS s ⟨[], s.capacity⟩ = s := by
  obtain ⟨items, cap⟩ := s
  simp only [mergeS, mergeLists_nil_right]
  rw [compressN_of_le h]

theorem C9_merge_empty_identity_witness :
    ([⟨1, 1⟩, ⟨2, 3⟩] : List Centroid).length ≤ 2 ∧
      mergeS ⟨[⟨1, 1⟩, ⟨2, 3⟩], 2⟩ ⟨[], 2⟩ = ⟨[⟨1, 1⟩, ⟨2, 3⟩], 2⟩ :=
  ⟨by decide, C9_merge_empty_identity ⟨[⟨1, 1⟩, ⟨2, 3⟩], 2⟩ (by decide)⟩

/-! ### Well-formedness preservation (sortedness and positive counts) -/

theorem mergePair_count (c d : Centroid) : (mergePair c d).count = c.count + d.count := rfl

theorem mergePair_value_lb {q : ℚ} {c d : Centroid} (hc : q ≤ c.value) (hd : q ≤ d.value)
    (hcc : 0 < c.count) (hdc : 0 < d.count) : q ≤ (mergePair c d).value := by
  rw [mergePair, le_div_iff₀ (by linarith)]
  nlinarith

theorem mergePair_value_le {c d : Centroid} (h : c.value ≤ d.value)
    (hcc : 0 < c.count) (hdc : 0 < d.count) : (mergePair c d).value ≤ d.value := by
  rw [mergePair, div_le_iff₀ (by linarith)]
  nlinarith

theorem mergePair_value_ge {c d : Centroid} (h : c.value ≤ d.value)
    (hcc : 0 < c.count) (hdc : 0 < d.count) : c.value ≤ (mergePair c d).value :=
  mergePair_value_lb le_rfl h hcc hdc

theorem insertC_forall {p : Centroid → Prop} {c : Centroid}
    (hmerge : ∀ d e : Centroid, p d → p e → p ⟨d.value, d.count + e.count⟩)
    (hc : p c) : ∀ {l : List Centroid}, (∀ d ∈ l, p d) → ∀ d ∈ insertC c l, p d := by
  intro l
  induction l with
  | nil => intro _ d hd; simp [insertC] at hd; subst hd; exact hc
  | cons e es ih =>
    intro hl d hd
    simp only [insertC] at hd
    split at hd
    · simp only [List.mem_cons] at hd
      rcases hd with h | h | h
      · exact h ▸ hc
      · exact h ▸ hl e (by simp)
      · exact hl d (by simp [h])
    · split at hd
      · simp only [List.mem_cons] at hd
        rcases hd with h | h
        · exact h ▸ hmerge e c (hl e (by simp)) hc
        · exact hl d (by simp [h])
      · simp only [List.mem_cons] at hd
        rcases hd with h | h
        · exact h ▸ hl e (by simp)
        · exact ih (fun d hd => hl d (by simp [hd])) d h

theorem insertC_sorted {c : Centroid} :
    ∀ {l : List Centroid}, l.Pairwise (fun a b => a.value ≤ b.value) →
      (insertC c l).Pairwise (fun a b => a.value ≤ b.value) := by
  intro l
  induction l with
  | nil => intro _; simp [insertC]
  | cons d ds ih =>
    intro hl
    rw [List.pairwise_cons] at hl
    obtain ⟨hd, hds⟩ := hl
    simp only [insertC]
    split
    · rename_i hlt
      refine List.pairwise_cons.2 ⟨?_, List.pairwise_cons.2 ⟨hd, hds⟩⟩
      intro e he
      rcases List.mem_cons.1 he with h | h
      · exact h ▸ le_of_lt hlt
      · exact le_trans (le_of_lt hlt) (hd e h)
    · split
      · exact List.pairwise_cons.2 ⟨hd, hds⟩
      · rename_i hlt heq
        have hcd : d.value ≤ c.value := le_of_not_lt hlt
        refine List.pairwise_cons.2 ⟨?_, ih hds⟩
        intro e he
        have : ∀ e ∈ insertC c ds, d.value ≤ e.value := by
          refine insertC_forall (p := fun e => d.value ≤ e.value) ?_ hcd hd
          intro a b ha _
          exact ha
        exact this e he

theorem mergeClosest_value_lb {q : ℚ} :
    ∀ l : List Centroid, (∀ c ∈ l, (1 : ℚ) ≤ c.count) → (∀ c ∈ l, q ≤ c.value) →
      ∀ c ∈ mergeClosest l, q ≤ c.value
  | c :: d :: e :: rest => by
    intro hcnt hl x hx
    rw [mergeClosest] at hx
    split at hx
    · rcases List.mem_cons.1 hx with h | h
      · refine h ▸ mergePair_value_lb (hl c (by simp)) (hl d (by simp)) ?_ ?_
        · exact lt_of_lt_of_le one_pos (hcnt c (by simp))
        · exact lt_of_lt_of_le one_pos (hcnt d (by simp))
      · exact hl x (by simp [h])
    · rcases List.mem_cons.1 hx with h | h
      · exact h ▸ hl c (by simp)
      · exact mergeClosest_value_lb (d :: e :: rest)
          (fun y hy => hcnt y (by simp [List.mem_cons] at hy ⊢; tauto))
          (fun y hy => hl y (by simp [List.mem_cons] at hy ⊢; tauto)) x h
  | [c, d] => by
    intro hcnt hl x hx
    rw [mergeClosest] at hx
    rcases List.mem_singleton.1 hx with h
    refine h ▸ mergePair_value_lb (hl c (by simp)) (hl d (by simp)) ?_ ?_
    · exact lt_of_lt_of_le one_pos (hcnt c (by simp))
    · exact lt_of_lt_of_le one_pos (hcnt d (by simp))
  | [] => by intro _ hl x hx; simp [mergeClosest] at hx
  | [c] => by
    intro _ hl x hx
    simp only [mergeClosest] at hx
    exact hl x hx

theorem mergeClosest_counts :
    ∀ l : List Centroid, (∀ c ∈ l, (1 : ℚ) ≤ c.count) →
      ∀ c ∈ mergeClosest l, (1 : ℚ) ≤ c.count
  | c :: d :: e :: rest => by
    intro hl x hx
    rw [mergeClosest] at hx
    split at hx
    · rcases List.mem_cons.1 hx with h | h
      · have h1 := hl c (by simp)
        have h2 := hl d (by simp)
        rw [h, mergePair_count]
        linarith
      · exact hl x (by simp [h])
    · rcases List.mem_cons.1 hx with h | h
      · exact h ▸ hl c (by simp)
      · exact mergeClosest_counts (d :: e :: rest)
          (fun y hy => hl y (by simp [List.mem_cons] at hy ⊢; tauto)) x h
  | [c, d] => by
    intro hl x hx
    rw [mergeClosest] at hx
    rcases List.mem_singleton.1 hx with h
    have h1 := hl c (by simp)
    have h2 := hl d (by simp)
    rw [h, mergePair_count]
    linarith
  | [] => by intro hl x hx; simp [mergeClosest] at hx
  | [c] => by
    intro hl x hx
    simp only [mergeClosest] at hx
    exact hl x hx

theorem mergeClosest_sorted :
    ∀ l : List Centroid, l.Pairwise (fun a b => a.value ≤ b.value) →
      (∀ c ∈ l, (1 : ℚ) ≤ c.count) →
      (mergeClosest l).Pairwise (fun a b => a.value ≤ b.value)
  | c :: d :: e :: rest => by
    intro hs hc
    rw [List.pairwise_cons] at hs
    obtain ⟨hc1, hs1⟩ := hs
    have hs2 := List.pairwise_cons.1 hs1
    rw [mergeClosest]
    split
    · have hcd : c.value ≤ d.value := hc1 d (by simp)
      have hccnt : (0 : ℚ) < c.count := lt_of_lt_of_le one_pos (hc c (by simp))
      have hdcnt : (0 : ℚ) < d.count := lt_of_lt_of_le one_pos (hc d (by simp))
      refine List.pairwise_cons.2 ⟨?_, hs2.2⟩
      intro x hx
      have hdx : d.value ≤ x.value := hs2.1 x hx
      exact le_trans (mergePair_value_le hcd hccnt hdcnt) hdx
    · refine List.pairwise_cons.2 ⟨?_, mergeClosest_sorted (d :: e :: rest) hs1
        (fun y hy => hc y (by simp [List.mem_cons] at hy ⊢; tauto))⟩
      intro x hx
      exact mergeClosest_value_lb (d :: e :: rest)
        (fun y hy => hc y (by simp [List.mem_cons] at hy ⊢; tauto))
        (fun y hy => hc1 y hy) x hx
  | [c, d] => by
    intro hs hc
    rw [mergeClosest]
    simp
  | [] => by intro _ _; simp [mergeClosest]
  | [c] => by intro _ _; simp [mergeClosest]

theorem mem_mergeLists : ∀ l₁ l₂ : List Centroid, ∀ x ∈ mergeLists l₁ l₂, x ∈ l₁ ∨ x ∈ l₂
  | [], l₂ => by intro x hx; rw [mergeLists] at hx; exact Or.inr hx
  | c :: cs, [] => by
    intro x hx
    rw [mergeLists_nil_right] at hx
    exact Or.inl hx
  | c :: cs, d :: ds => by
    intro x hx
    rw [mergeLists] at hx
    split at hx
    · simp only [List.mem_cons] at hx
      rcases hx with h | h
      · exact Or.inl (by simp [h])
      · rcases mem_mergeLists cs (d :: ds) x h with h1 | h1
        · exact Or.inl (by simp [h1])
        · exact Or.inr h1
    · simp only [List.mem_cons] at hx
      rcases hx with h | h
      · exact Or.inr (by simp [h])
      · rcases mem_mergeLists (c :: cs) ds x h with h1 | h1
        · exact Or.inl h1
        · exact Or.inr (by simp [h1])
  termination_by l₁ l₂ => l₁.length + l₂.length

theorem mergeLists_sorted : ∀ l₁ l₂ : List Centroid,
    l₁.Pairwise (fun a b => a.value ≤ b.value) →
    l₂.Pairwise (fun a b => a.value ≤ b.value) →
    (mergeLists l₁ l₂).Pairwise (fun a b => a.value ≤ b.value)
  | [], l₂ => by intro _ h2; rw [mergeLists]; exact h2
  | c :: cs, [] => by intro h1 _; rw [mergeLists_nil_right]; exact h1
  | c :: cs, d :: ds => by
    intro h1 h2
    have hc1 := List.pairwise_cons.1 h1
    have hd1 := List.pairwise_cons.1 h2
    rw [mergeLists]
    split
    · rename_i hcd
      refine List.pairwise_cons.2 ⟨?_, mergeLists_sorted cs (d :: ds) hc1.2 h2⟩
      intro x hx
      rcases mem_mergeLists cs (d :: ds) x hx with h | h
      · exact hc1.1 x h
      · simp only [List.mem_cons] at h
        rcases h with h | h
        · exact h ▸ hcd
        · exact le_trans hcd (hd1.1 x h)
    · rename_i hcd
      push_neg at hcd
      refine List.pairwise_cons.2 ⟨?_, mergeLists_sorted (c :: cs) ds h1 hd1.2⟩
      intro x hx
      rcases mem_mergeLists (c :: cs) ds x hx with h | h
      · simp only [List.mem_cons] at h
        rcases h with h | h
        · exact h ▸ le_of_lt hcd
        · exact le_trans (le_of_lt hcd) (hc1.1 x h)
      · exact hd1.1 x h
  termination_by l₁ l₂ => l₁.length + l₂.length

/-! ### Well-formedness is preserved by every mutation -/

theorem WFL_insertC {c : Centroid} {l : List Centroid} (hc : (1 : ℚ) ≤ c.count)
    (h : WFL l) : WFL (insertC c l) := by
  refine ⟨insertC_sorted h.1, ?_⟩
  refine insertC_forall (p := fun d => (1 : ℚ) ≤ d.count) ?_ hc h.2
  intro d e hd he
  simp only
  linarith

theorem WFL_mergeClosest {l : List Centroid} (h : WFL l) : WFL (mergeClosest l) :=
  ⟨mergeClosest_sorted l h.1 h.2, mergeClosest_counts l h.2⟩

theorem WFL_overflow {cap : ℕ} {l : List Centroid} (h : WFL l) : WFL (overflow cap l) := by
  unfold overflow
  split
  · exact WFL_mergeClosest h
  · exact h

theorem WFL_mergeLists {l₁ l₂ : List Centroid} (h1 : WFL l₁) (h2 : WFL l₂) :
    WFL (mergeLists l₁ l₂) := by
  refine ⟨mergeLists_sorted l₁ l₂ h1.1 h2.1, ?_⟩
  intro x hx
  rcases mem_mergeLists l₁ l₂ x hx with h | h
  · exact h1.2 x h
  · exact h2.2 x h

theorem WFL_compressN {cap : ℕ} : ∀ (fuel : ℕ) {l : List Centroid}, WFL l →
    WFL (compressN fuel cap l)
  | 0, _, h => h
  | fuel + 1, l, h => by
    rw [compressN]
    split
    · exact h
    · exact WFL_compressN fuel (WFL_mergeClosest h)

theorem WFL_add {s : Sketch} (h : WFL s.items) (x : ℚ) : WFL (add s x).items :=
  WFL_overflow (WFL_insertC (by norm_num) h)

theorem WFL_addMany {s : Sketch} (h : WFL s.items) (x : ℚ) {n : ℕ} (hn : 1 ≤ n) :
    WFL (addMany s x n).items :=
  WFL_overflow (WFL_insertC (by simp only; exact_mod_cast hn) h)

theorem WFL_mergeS {s o : Sketch} (hs : WFL s.items) (ho : WFL o.items) :
    WFL (mergeS s o).items :=
  WFL_compressN _ (WFL_mergeLists hs ho)

/-- C3: for every well-formed sketch (sorted items, counts ≥ 1) and every
mutation — `Add`, `AddMany` with positive count, or `Merge` with a
well-formed other sketch — the centroid sequence is non-decreasing by value
after the mutation completes. -/
theorem C3_monotonic_order (s : Sketch) (hs : WFL s.items) :
    (∀ x : ℚ, (add s x).items.Pairwise (fun a b => a.value ≤ b.value)) ∧
      (∀ (x : ℚ) (n : ℕ), 1 ≤ n →
        (addMany s x n).items.Pairwise (fun a b => a.value ≤ b.value)) ∧
      ∀ o : Sketch, WFL o.items →
        (mergeS s o).items.Pairwise (fun a b => a.value ≤ b.value) :=
  ⟨fun x => (WFL_add hs x).1, fun x _ hn => (WFL_addMany hs x hn).1,
    fun _ ho => (WFL_mergeS hs ho).1⟩

theorem C3_monotonic_order_witness :
    WFL ([⟨1, 1⟩, ⟨2, 2⟩] : List Centroid) ∧
      (add ⟨[⟨1, 1⟩, ⟨2, 2⟩], 3⟩ 5).items.Pairwise (fun a b => a.value ≤ b.value) :=
  have hwf : WFL ([⟨1, 1⟩, ⟨2, 2⟩] : List Centroid) := by
    norm_num [WFL, List.pairwise_cons]
  ⟨hwf, (C3_monotonic_order ⟨[⟨1, 1⟩, ⟨2, 2⟩], 3⟩ hwf).1 5⟩

/-! ### Sum boundary behavior -/

theorem sorted_value_le_getLast :
    ∀ {l : List Centroid} (hne : l ≠ []), l.Pairwise (fun a b => a.value ≤ b.value) →
      ∀ x ∈ l, x.value ≤ (l.getLast hne).value := by
  intro l
  induction l with
  | nil => intro hne; exact absurd rfl hne
  | cons c rest ih =>
    intro _ hs x hx
    have hc := List.pairwise_cons.1 hs
    cases rest with
    | nil => simp only [List.mem_singleton] at hx; simp [hx]
    | cons d rest' =>
      rw [List.getLast_cons (by simp)]
      simp only [List.mem_cons] at hx
      rcases hx with h | h
      · subst h
        exact le_trans (hc.1 _ (List.getLast_mem _)) le_rfl
      · exact ih (by simp) hc.2 x (List.mem_cons.2 h)

theorem sumFrom_of_all_le {b : ℚ} :
    ∀ (c : Centroid) (rest : List Centroid), (∀ x ∈ c :: rest, x.value ≤ b) →
      sumFrom b (c :: rest) = totalL (c :: rest)
  | c, [] => by intro _; simp [sumFrom, totalL]
  | c, d :: rest => by
    intro h
    rw [sumFrom, if_neg (not_lt.2 (h d (by simp)))]
    rw [sumFrom_of_all_le d rest (fun x hx => h x (by simp [List.mem_cons] at hx ⊢; tauto))]
    simp [totalL_cons]

/-- C6: `Sum(b)` returns 0 on an empty sketch; on a non-empty sorted sketch it
returns 0 whenever `b` is below the minimum centroid value and the total count
whenever `b` is at least the maximum centroid value. -/
theorem C6_sum_boundaries (s : Sketch) (b : ℚ) :
    (s.items = [] → sumQ s b = 0) ∧
      (s.items ≠ [] → s.items.Pairwise (fun a c => a.value ≤ c.value) →
        (b < minS s → sumQ s b = 0) ∧ (maxS s ≤ b → sumQ s b = totalS s)) := by
  obtain ⟨items, cap⟩ := s
  cases items with
  | nil => exact ⟨fun _ => rfl, fun h => absurd rfl h⟩
  | cons c rest =>
    refine ⟨fun h => by simp at h, fun _ hs => ⟨?_, ?_⟩⟩
    · intro hb
      simp only [minS, List.head?_cons, Option.map_some', Option.getD_some] at hb
      simp only [sumQ]
      rw [if_pos hb]
    · intro hb
      have hlast : ((c :: rest).getLast (by simp)).value ≤ b := by
        rw [maxS] at hb
        rw [List.getLast?_eq_getLast _ (by simp)] at hb
        simpa using hb
      have hall : ∀ x ∈ c :: rest, x.value ≤ b :=
        fun x hx => le_trans (sorted_value_le_getLast (by simp) hs x hx) hlast
      simp only [sumQ, totalS]
      rw [if_neg (not_lt.2 (hall c (by simp))), sumFrom_of_all_le c rest hall]

theorem C6_sum_boundaries_witness :
    (([⟨1, 1⟩, ⟨3, 2⟩] : List Centroid) ≠ [] ∧
        ([⟨1, 1⟩, ⟨3, 2⟩] : List Centroid).Pairwise (fun a c => a.value ≤ c.value) ∧
        maxS ⟨[⟨1, 1⟩, ⟨3, 2⟩], 5⟩ ≤ 4) ∧
      sumQ ⟨[⟨1, 1⟩, ⟨3, 2⟩], 5⟩ 4 = totalS ⟨[⟨1, 1⟩, ⟨3, 2⟩], 5⟩ :=
  have h1 : ([⟨1, 1⟩, ⟨3, 2⟩] : List Centroid) ≠ [] := by simp
  have h2 : ([⟨1, 1⟩, ⟨3, 2⟩] : List Centroid).Pairwise (fun a c => a.value ≤ c.value) := by
    norm_num [List.pairwise_cons]
  have h3 : maxS ⟨[⟨1, 1⟩, ⟨3, 2⟩], 5⟩ ≤ 4 := by norm_num [maxS]
  ⟨⟨h1, h2, h3⟩, ((C6_sum_boundaries ⟨[⟨1, 1⟩, ⟨3, 2⟩], 5⟩ 4).2 h1 h2).2 h3⟩

/-! ### Sum monotonicity -/

theorem trap_eq (c d : Centroid) (b : ℚ) :
    trap c d b = c.count * ((b - c.value) / (d.value - c.value)) +
      (d.count - c.count) * ((b - c.value) / (d.value - c.value)) ^ 2 / 2 := by
  rw [trap]
  ring

theorem trap_nonneg {c d : Centroid} {b : ℚ} (hc : (0 : ℚ) ≤ c.count)
    (hd : (0 : ℚ) ≤ d.count) (hcb : c.value ≤ b) (hbd : b < d.value) :
    0 ≤ trap c d b := by
  have hw : (0 : ℚ) < d.value - c.value := by linarith
  rw [trap_eq]
  set t := (b - c.value) / (d.value - c.value) with ht
  have ht0 : 0 ≤ t := div_nonneg (by linarith) (le_of_lt hw)
  have ht1 : t ≤ 1 := le_of_lt ((div_lt_one hw).2 (by linarith))
  nlinarith [mul_nonneg (mul_nonneg hc ht0) (by linarith : (0 : ℚ) ≤ 2 - t),
    mul_nonneg hd (sq_nonneg t)]

theorem trap_mono {c d : Centroid} {b1 b2 : ℚ} (hc : (0 : ℚ) ≤ c.count)
    (hd : (0 : ℚ) ≤ d.count) (hcb : c.value ≤ b1) (h12 : b1 ≤ b2) (hbd : b2 < d.value) :
    trap c d b1 ≤ trap c d b2 := by
  have hw : (0 : ℚ) < d.value - c.value := by linarith
  rw [trap_eq, trap_eq]
  set t1 := (b1 - c.value) / (d.value - c.value) with ht1e
  set t2 := (b2 - c.value) / (d.value - c.value) with ht2e
  have ht10 : 0 ≤ t1 := div_nonneg (by linarith) (le_of_lt hw)
  have ht12 : t1 ≤ t2 := by
    rw [ht1e, ht2e]
    gcongr
  have ht21 : t2 ≤ 1 := le_of_lt ((div_lt_one hw).2 (by linarith))
  nlinarith [mul_nonneg (mul_nonneg hc (by linarith : (0 : ℚ) ≤ t2 - t1))
      (by linarith : (0 : ℚ) ≤ 2 - t1 - t2),
    mul_nonneg (mul_nonneg hd (by linarith : (0 : ℚ) ≤ t2 - t1))
      (by linarith : (0 : ℚ) ≤ t1 + t2)]

theorem trap_le_half {c d : Centroid} {b : ℚ} (hc : (0 : ℚ) ≤ c.count)
    (hd : (0 : ℚ) ≤ d.count) (hcb : c.value ≤ b) (hbd : b < d.value) :
    trap c d b ≤ (c.count + d.count) / 2 := by
  have hw : (0 : ℚ) < d.value - c.value := by linarith
  rw [trap_eq]
  set t := (b - c.value) / (d.value - c.value) with ht
  have ht0 : 0 ≤ t := div_nonneg (by linarith) (le_of_lt hw)
  have ht1 : t ≤ 1 := le_of_lt ((div_lt_one hw).2 (by linarith))
  nlinarith [mul_nonneg hc (sq_nonneg (1 - t)),
    mul_nonneg (mul_nonneg hd (by linarith : (0 : ℚ) ≤ 1 - t))
      (by linarith : (0 : ℚ) ≤ 1 + t)]

theorem sumFrom_nonneg {b : ℚ} :
    ∀ (c : Centroid) (rest : List Centroid),
      (c :: rest).Pairwise (fun a b => a.value ≤ b.value) →
      (∀ x ∈ c :: rest, (0 : ℚ) ≤ x.count) → c.value ≤ b →
      0 ≤ sumFrom b (c :: rest)
  | c, [] => by
    intro _ hcnt _
    simpa [sumFrom] using hcnt c (by simp)
  | c, d :: rest => by
    intro hs hcnt hcb
    have hcc := hcnt c (by simp)
    have hdc := hcnt d (by simp)
    rw [sumFrom]
    split
    · rename_i hbd
      have := trap_nonneg hcc hdc hcb hbd
      linarith
    · rename_i hbd
      push_neg at hbd
      have ih := sumFrom_nonneg d rest (List.pairwise_cons.1 hs).2
        (fun x hx => hcnt x (List.mem_cons.2 (Or.inr hx))) hbd
      linarith

theorem sumFrom_ge_half {b : ℚ} :
    ∀ (c : Centroid) (rest : List Centroid),
      (c :: rest).Pairwise (fun a b => a.value ≤ b.value) →
      (∀ x ∈ c :: rest, (0 : ℚ) ≤ x.count) → c.value ≤ b →
      c.count / 2 ≤ sumFrom b (c :: rest)
  | c, [] => by
    intro _ hcnt _
    have := hcnt c (by simp)
    simp only [sumFrom]
    linarith
  | c, d :: rest => by
    intro hs hcnt hcb
    have hcc := hcnt c (by simp)
    have hdc := hcnt d (by simp)
    rw [sumFrom]
    split
    · rename_i hbd
      have := trap_nonneg hcc hdc hcb hbd
      linarith
    · rename_i hbd
      push_neg at hbd
      have ih := sumFrom_nonneg d rest (List.pairwise_cons.1 hs).2
        (fun x hx => hcnt x (List.mem_cons.2 (Or.inr hx))) hbd
      linarith

theorem sumFrom_mono {b1 b2 : ℚ} :
    ∀ (c : Centroid) (rest : List Centroid),
      (c :: rest).Pairwise (fun a b => a.value ≤ b.value) →
      (∀ x ∈ c :: rest, (0 : ℚ) ≤ x.count) → c.value ≤ b1 → b1 ≤ b2 →
      sumFrom b1 (c :: rest) ≤ sumFrom b2 (c :: rest)
  | c, [] => by intro _ _ _ _; simp [sumFrom]
  | c, d :: rest => by
    intro hs hcnt hcb h12
    have hcc := hcnt c (by simp)
    have hdc := hcnt d (by simp)
    have hcnt' : ∀ x ∈ d :: rest, (0 : ℚ) ≤ x.count :=
      fun x hx => hcnt x (List.mem_cons.2 (Or.inr hx))
    have hs' := (List.pairwise_cons.1 hs).2
    by_cases hb2 : b2 < d.value
    · have hb1 : b1 < d.value := lt_of_le_of_lt h12 hb2
      rw [sumFrom, sumFrom, if_pos hb1, if_pos hb2]
      have := trap_mono hcc hdc hcb h12 hb2
      linarith
    · push_neg at hb2
      by_cases hb1 : b1 < d.value
      · rw [sumFrom, sumFrom, if_pos hb1, if_neg (not_lt.2 hb2)]
        have h1 := trap_le_half hcc hdc hcb hb1
        have h2 := sumFrom_ge_half d rest hs' hcnt' hb2
        linarith
      · push_neg at hb1
        rw [sumFrom, sumFrom, if_neg (not_lt.2 hb1), if_neg (not_lt.2 hb2)]
        have ih := sumFrom_mono d rest hs' hcnt' hb1 h12
        linarith

/-- C7: for every non-empty well-formed sketch and all thresholds
`x1 < x2`, `Sum(x1) ≤ Sum(x2)`. -/
theorem C7_sum_monotone (s : Sketch) (hs : WFL s.items) (hne : s.items ≠ [])
    (x1 x2 : ℚ) (h : x1 < x2) : sumQ s x1 ≤ sumQ s x2 := by
  obtain ⟨items, cap⟩ := s
  cases items with
  | nil => exact absurd rfl hne
  | cons c rest =>
    have hcnt : ∀ x ∈ c :: rest, (0 : ℚ) ≤ x.count :=
      fun x hx => le_trans zero_le_one (hs.2 x hx)
    simp only [sumQ]
    by_cases h1 : x1 < c.value
    · rw [if_pos h1]
      split
      · exact le_rfl
      · rename_i h2
        push_neg at h2
        exact sumFrom_nonneg c rest hs.1 hcnt h2
    · push_neg at h1
      rw [if_neg (not_lt.2 h1), if_neg (not_lt.2 (le_trans h1 (le_of_lt h)))]
      exact sumFrom_mono c rest hs.1 hcnt h1 (le_of_lt h)

theorem C7_sum_monotone_witness :
    (WFL ([⟨1, 1⟩, ⟨3, 2⟩] : List Centroid) ∧
        ([⟨1, 1⟩, ⟨3, 2⟩] : List Centroid) ≠ [] ∧ (1 : ℚ) < 2) ∧
      sumQ ⟨[⟨1, 1⟩, ⟨3, 2⟩], 5⟩ 1 ≤ sumQ ⟨[⟨1, 1⟩, ⟨3, 2⟩], 5⟩ 2 :=
  have hwf : WFL ([⟨1, 1⟩, ⟨3, 2⟩] : List Centroid) := by
    norm_num [WFL, List.pairwise_cons]
  ⟨⟨hwf, by simp, by norm_num⟩,
    C7_sum_monotone ⟨[⟨1, 1⟩, ⟨3, 2⟩], 5⟩ hwf (by simp) 1 2 (by norm_num)⟩

/-! ### Quantile boundary behavior -/

theorem totalL_nonneg {l : List Centroid} (h : ∀ x ∈ l, (0 : ℚ) ≤ x.count) :
    0 ≤ totalL l := by
  induction l with
  | nil => simp [totalL]
  | cons c rest ih =>
    rw [totalL_cons]
    have h1 := h c (by simp)
    have h2 := ih (fun x hx => h x (List.mem_cons.2 (Or.inr hx)))
    linarith

theorem quantileWalk_exhaust :
    ∀ (c : Centroid) (rest : List Centroid) (r : ℚ),
      (∀ x ∈ c :: rest, (1 : ℚ) ≤ x.count) →
      totalL (c :: rest) - c.count / 2 ≤ r →
      quantileWalk r (c :: rest) = (((c :: rest).getLast (by simp)).value : ℝ)
  | c, [], r => by intro _ _; simp [quantileWalk]
  | c, d :: rest, r => by
    intro hcnt hr
    have hd1 : (1 : ℚ) ≤ d.count := hcnt d (by simp)
    have hrest : (0 : ℚ) ≤ totalL rest :=
      totalL_nonneg fun x hx =>
        le_trans zero_le_one (hcnt x (List.mem_cons.2 (Or.inr (List.mem_cons.2 (Or.inr hx)))))
    rw [totalL_cons, totalL_cons] at hr
    rw [quantileWalk, if_neg (by push_neg; linarith)]
    rw [quantileWalk_exhaust d rest _ (fun x hx => hcnt x (List.mem_cons.2 (Or.inr hx)))
      (by rw [totalL_cons]; linarith)]
    rfl

/-- C8: on every non-empty sketch whose counts satisfy the `count ≥ 1`
invariant, `Quantile(0)` returns the stored minimum centroid value and
`Quantile(1)` returns the stored maximum centroid value. -/
theorem C8_quantile_boundaries (s : Sketch) (hne : s.items ≠ [])
    (hcnt : ∀ c ∈ s.items, (1 : ℚ) ≤ c.count) :
    quantile s 0 = ((minS s : ℚ) : ℝ) ∧ quantile s 1 = ((maxS s : ℚ) : ℝ) := by
  obtain ⟨items, cap⟩ := s
  cases items with
  | nil => exact absurd rfl hne
  | cons c rest =>
    simp only at hcnt
    have hc1 : (1 : ℚ) ≤ c.count := hcnt c (by simp)
    have hrest : (0 : ℚ) ≤ totalL rest :=
      totalL_nonneg fun x hx => le_trans zero_le_one (hcnt x (List.mem_cons.2 (Or.inr hx)))
    constructor
    · simp only [quantile]
      rw [if_pos (by rw [zero_mul]; linarith)]
      simp [minS]
    · have htot : totalS ⟨c :: rest, cap⟩ = c.count + totalL rest := by
        simp [totalS, totalL_cons]
      simp only [quantile]
      rw [if_neg (by rw [one_mul, htot]; push_neg; linarith)]
      rw [quantileWalk_exhaust c rest _ hcnt
        (by rw [one_mul, htot, totalL_cons])]
      have hg : (c :: rest).getLast? = some ((c :: rest).getLast (by simp)) :=
        List.getLast?_eq_getLast _ (by simp)
      rw [maxS, hg]
      simp

theorem C8_quantile_boundaries_witness :
    (([⟨1, 1⟩, ⟨3, 2⟩] : List Centroid) ≠ [] ∧
        ∀ c ∈ ([⟨1, 1⟩, ⟨3, 2⟩] : List Centroid), (1 : ℚ) ≤ c.count) ∧
      quantile ⟨[⟨1, 1⟩, ⟨3, 2⟩], 5⟩ 0 = ((minS ⟨[⟨1, 1⟩, ⟨3, 2⟩], 5⟩ : ℚ) : ℝ) :=
  have h1 : ([⟨1, 1⟩, ⟨3, 2⟩] : List Centroid) ≠ [] := by simp
  have h2 : ∀ c ∈ ([⟨1, 1⟩, ⟨3, 2⟩] : List Centroid), (1 : ℚ) ≤ c.count := by
    norm_num [List.mem_cons]
  ⟨⟨h1, h2⟩, (C8_quantile_boundaries ⟨[⟨1, 1⟩, ⟨3, 2⟩], 5⟩ h1 h2).1⟩

/-! ### NewFromSample on the concrete sample -/

/-- C10: `BuildOptimal` (`NewFromSample`) applied to the sample
`{1,2,3,100,101,102}` with `k = 2` produces exactly the centroids `(2,3)` and
`(101,3)`; and among all five contiguous 2-partitions of the sorted sample
(split after position `j+1` for `j = 0..4`), the chosen split after position
3 minimizes the total sum of squared distances of each point to its group's
mean (brute-force check of the dynamic program's answer). -/
theorem C10_build_optimal :
    buildOptimal [1, 2, 3, 100, 101, 102] 2 = ⟨[⟨2, 3⟩, ⟨101, 3⟩], 2⟩ ∧
      ∀ j ∈ List.range 5,
        cost [1, 2, 3, 100, 101, 102] 0 3 + cost [1, 2, 3, 100, 101, 102] 3 6 ≤
          cost [1, 2, 3, 100, 101, 102] 0 (j + 1) +
            cost [1, 2, 3, 100, 101, 102] (j + 1) 6 := by
  constructor
  · norm_num [buildOptimal, sortQ, insertSorted, traceback, choice, dp, minQO, minNE,
      firstWith, cost, prefixSum, prefixSumSq, segCentroid, List.range_succ,
      List.filterMap_cons]
  · intro j hj
    fin_cases hj <;> norm_num [cost, prefixSum, prefixSumSq]

/-! ### Minimum and gap-list infrastructure (towards the `AddMany` equivalence) -/

theorem minNE_le_left (x : ℚ) : ∀ ys : List ℚ, minNE x ys ≤ x
  | [] => le_rfl
  | y :: ys => by
    rw [minNE]
    exact min_le_left _ _

theorem minNE_le_mem (x : ℚ) : ∀ ys : List ℚ, ∀ y ∈ ys, minNE x ys ≤ y
  | y :: ys, z, hz => by
    rw [minNE]
    simp only [List.mem_cons] at hz
    rcases hz with h | h
    · exact le_trans (min_le_right _ _) (h ▸ minNE_le_left y ys)
    · exact le_trans (min_le_right _ _) (minNE_le_mem y ys z h)

theorem le_minNE {g x : ℚ} (hx : g ≤ x) : ∀ {ys : List ℚ}, (∀ y ∈ ys, g ≤ y) → g ≤ minNE x ys
  | [], _ => hx
  | y :: ys, h => by
    rw [minNE]
    exact le_min hx (le_minNE (h y (by simp)) fun z hz => h z (by simp [hz]))

theorem gapsL_cons2 (c d : Centroid) (rest : List Centroid) :
    gapsL (c :: d :: rest) = |d.value - c.value| :: gapsL (d :: rest) := rfl

theorem gapsL_nil : gapsL [] = [] := rfl

theorem gapsL_singleton (c : Centroid) : gapsL [c] = [] := rfl

/-- The gap list depends only on the values. -/
theorem gapsL_congr : ∀ {l₁ l₂ : List Centroid},
    l₁.map Centroid.value = l₂.map Centroid.value → gapsL l₁ = gapsL l₂
  | [], [], _ => rfl
  | [], _ :: _, h => by simp at h
  | _ :: _, [], h => by simp at h
  | [c], l₂, h => by
    cases l₂ with
    | nil => simp at h
    | cons d l₂' =>
      cases l₂' with
      | nil => rfl
      | cons e l₂'' => simp at h
  | c :: c' :: l₁', d :: l₂, h => by
    cases l₂ with
    | nil => simp at h
    | cons d' l₂' =>
      simp only [List.map_cons, List.cons.injEq] at h
      rw [gapsL_cons2, gapsL_cons2, h.1, h.2.1,
        @gapsL_congr (c' :: l₁') (d' :: l₂') (by simp [h.2.1, h.2.2])]

/-- The guard of `mergeClosest` at a front pair says exactly that the front
gap is at most every gap of the tail. -/
theorem guard_iff (c d e : Centroid) (rest : List Centroid) :
    |d.value - c.value| ≤ minNE |e.value - d.value| (gapsL (e :: rest)) ↔
      ∀ γ ∈ gapsL (d :: e :: rest), |d.value - c.value| ≤ γ := by
  constructor
  · intro h γ hγ
    rw [gapsL_cons2] at hγ
    simp only [List.mem_cons] at hγ
    rcases hγ with h1 | h1
    · exact le_trans h (h1 ▸ minNE_le_left _ _)
    · exact le_trans h (minNE_le_mem _ _ γ h1)
  · intro h
    exact le_minNE (h _ (by rw [gapsL_cons2]; simp))
      fun y hy => h y (by rw [gapsL_cons2]; simp [hy])

/-- The gap of any adjacent pair occurs in the gap list. -/
theorem mem_gapsL : ∀ (X : List Centroid) (p q : Centroid) (Y : List Centroid),
    |q.value - p.value| ∈ gapsL (X ++ p :: q :: Y)
  | [], p, q, Y => by rw [List.nil_append, gapsL_cons2]; simp
  | a :: X', p, q, Y => by
    obtain ⟨w, ws, hw⟩ : ∃ w ws, X' ++ p :: q :: Y = w :: ws := by
      cases X' <;> exact ⟨_, _, rfl⟩
    have h := mem_gapsL X' p q Y
    rw [hw] at h
    rw [List.cons_append, hw, gapsL_cons2]
    simp [h]

/-- Splitting a gap list at an interior element. -/
theorem gapsL_append : ∀ (A : List Centroid) (b : Centroid) (B : List Centroid),
    gapsL (A ++ b :: B) = gapsL (A ++ [b]) ++ gapsL (b :: B)
  | [], b, B => by simp [gapsL_singleton]
  | a :: A', b, B => by
    obtain ⟨w, ws, hw⟩ : ∃ w ws, A' ++ b :: B = w :: ws := by
      cases A' <;> exact ⟨_, _, rfl⟩
    obtain ⟨w', ws', hw'⟩ : ∃ w' ws', A' ++ [b] = w' :: ws' := by
      cases A' <;> exact ⟨_, _, rfl⟩
    have hhead : w' = w := by
      cases A' with
      | nil =>
        simp only [List.nil_append] at hw hw'
        injection hw with h1 _
        injection hw' with h2 _
        rw [← h1, ← h2]
      | cons a'' A'' =>
        simp only [List.cons_append] at hw hw'
        injection hw with h1 _
        injection hw' with h2 _
        rw [← h1, ← h2]
    have h := gapsL_append A' b B
    rw [List.cons_append, hw, gapsL_cons2, ← hw, h, hw']
    rw [List.cons_append, hw', gapsL_cons2, ← hw', hhead]
    simp

theorem chain'_gapsL {g : ℚ} :
    ∀ {l : List Centroid}, List.Chain' (fun a b => g < |b.value - a.value|) l →
      ∀ γ ∈ gapsL l, g < γ
  | [], _, γ, hγ => by simp [gapsL_nil] at hγ
  | [c], _, γ, hγ => by simp [gapsL_singleton] at hγ
  | c :: d :: rest, h, γ, hγ => by
    rw [gapsL_cons2] at hγ
    have h1 := List.chain'_cons.1 h
    simp only [List.mem_cons] at hγ
    rcases hγ with h2 | h2
    · exact h2 ▸ h1.1
    · exact chain'_gapsL h1.2 γ h2

/-- If every gap strictly left of the pair `(p, q)` exceeds the pair's gap and
every gap to its right is at least it, `mergeClosest` merges exactly `(p, q)`
(it is the leftmost minimal-gap pair). -/
theorem mergeClosest_at :
    ∀ (X : List Centroid) (p q : Centroid) (Y : List Centroid),
      List.Chain' (fun a b => |q.value - p.value| < |b.value - a.value|) (X ++ [p]) →
      (∀ γ ∈ gapsL (q :: Y), |q.value - p.value| ≤ γ) →
      mergeClosest (X ++ p :: q :: Y) = X ++ mergePair p q :: Y
  | [], p, q, [] => by
    intro _ _
    simp [mergeClosest]
  | [], p, q, e :: Y' => by
    intro _ hafter
    rw [List.nil_append, mergeClosest, if_pos ((guard_iff p q e Y').2 hafter)]
    rfl
  | [a], p, q, Y => by
    intro hbefore hafter
    have hmin : minNE |q.value - p.value| (gapsL (q :: Y)) ≤ |q.value - p.value| :=
      minNE_le_left _ _
    have hlink : |q.value - p.value| < |p.value - a.value| :=
      (List.chain'_cons.1 hbefore).1
    have hrec := mergeClosest_at [] p q Y (by simp) hafter
    rw [List.nil_append] at hrec
    rw [List.cons_append, List.nil_append, mergeClosest,
      if_neg (not_le.2 (lt_of_le_of_lt hmin hlink)), hrec]
    rfl
  | a :: b :: X'', p, q, Y => by
    intro hbefore hafter
    obtain ⟨w, ws, hw⟩ : ∃ w ws, X'' ++ p :: q :: Y = w :: ws := by
      cases X'' <;> exact ⟨_, _, rfl⟩
    have hbefore' : List.Chain'
        (fun a b => |q.value - p.value| < |b.value - a.value|) ((b :: X'') ++ [p]) :=
      (List.chain'_cons.1 hbefore).2
    have hab : |q.value - p.value| < |b.value - a.value| :=
      (List.chain'_cons.1 hbefore).1
    have hrec := mergeClosest_at (b :: X'') p q Y hbefore' hafter
    have hmem : |q.value - p.value| ∈ gapsL (b :: w :: ws) := by
      have h := mem_gapsL (b :: X'') p q Y
      rwa [List.cons_append, hw] at h
    have hguard : ¬ |b.value - a.value| ≤ minNE |w.value - b.value| (gapsL (w :: ws)) := by
      intro hg
      have := (guard_iff a b w ws).1 hg _ hmem
      exact absurd hab (not_lt.2 this)
    rw [List.cons_append, List.cons_append, hw, mergeClosest, if_neg hguard, ← hw]
    have hshape : b :: (X'' ++ p :: q :: Y) = (b :: X'') ++ p :: q :: Y := rfl
    rw [hshape, hrec]
    rfl

/-- Every list of length ≥ 2 decomposes at the leftmost minimal-gap adjacent
pair, which is the pair `mergeClosest` merges. -/
theorem mergeClosest_decomp :
    ∀ l : List Centroid, 2 ≤ l.length →
      ∃ (X : List Centroid) (p q : Centroid) (Y : List Centroid),
        l = X ++ p :: q :: Y ∧
        mergeClosest l = X ++ mergePair p q :: Y ∧
        List.Chain' (fun a b => |q.value - p.value| < |b.value - a.value|) (X ++ [p]) ∧
        ∀ γ ∈ gapsL (q :: Y), |q.value - p.value| ≤ γ
  | [c, d], _ => by
    refine ⟨[], c, d, [], rfl, by simp [mergeClosest], by simp, ?_⟩
    simp [gapsL_singleton]
  | c :: d :: e :: rest, _ => by
    by_cases hg : |d.value - c.value| ≤ minNE |e.value - d.value| (gapsL (e :: rest))
    · refine ⟨[], c, d, e :: rest, rfl, ?_, by simp, (guard_iff c d e rest).1 hg⟩
      rw [mergeClosest, if_pos hg]
      rfl
    · obtain ⟨X, p, q, Y, hdec, hmc, hchain, hafter⟩ :=
        mergeClosest_decomp (d :: e :: rest) (by simp)
      have hall : ∀ γ ∈ gapsL (d :: e :: rest), |q.value - p.value| ≤ γ := by
        intro γ hγ
        rw [hdec, gapsL_append, gapsL_cons2] at hγ
        rcases List.mem_append.1 hγ with h | h
        · exact le_of_lt (chain'_gapsL hchain γ h)
        · simp only [List.mem_cons] at h
          rcases h with h | h
          · exact h ▸ le_rfl
          · exact hafter γ h
      have hgap : |q.value - p.value| < |d.value - c.value| := by
        push_neg at hg
        refine lt_of_le_of_lt (le_minNE ?_ ?_) hg
        · exact hall _ (by rw [gapsL_cons2]; simp)
        · intro y hy
          exact hall y (by rw [gapsL_cons2]; simp [hy])
      obtain ⟨ws, hws⟩ : ∃ ws, X ++ [p] = d :: ws := by
        cases X with
        | nil =>
          simp only [List.nil_append] at hdec
          injection hdec with h1 _
          exact ⟨[], by rw [h1]; rfl⟩
        | cons x₀ X' =>
          simp only [List.cons_append] at hdec
          injection hdec with h1 _
          exact ⟨X' ++ [p], by rw [h1]; rfl⟩
      refine ⟨c :: X, p, q, Y, by rw [List.cons_append, ← hdec], ?_, ?_, hafter⟩
      · rw [mergeClosest, if_neg hg, hmc]
        rfl
      · rw [List.cons_append, hws]
        exact List.chain'_cons.2 ⟨hgap, hws ▸ hchain⟩

/-! ### Insertion lemmas for the `AddMany` equivalence -/

/-- Two insertions at the same value collapse into one insertion with the
summed count. -/
theorem insertC_add (x a b : ℚ) : ∀ l : List Centroid,
    insertC ⟨x, a⟩ (insertC ⟨x, b⟩ l) = insertC ⟨x, a + b⟩ l
  | [] => by
    simp only [insertC, lt_self_iff_false, if_false, if_pos]
    rw [add_comm b a]
  | d :: ds => by
    rcases lt_trichotomy x d.value with h | h | h
    · simp only [insertC, if_pos h, lt_self_iff_false, if_false, if_pos]
      rw [add_comm b a]
    · have h1 : ¬ x < d.value := by rw [h]; exact lt_irrefl _
      simp only [insertC, if_neg h1, if_pos h]
      rw [add_assoc, add_comm b a]
    · have h1 : ¬ x < d.value := not_lt.2 (le_of_lt h)
      have h2 : ¬ x = d.value := ne_of_gt h
      simp only [insertC, if_neg h1, if_neg h2]
      rw [insertC_add x a b ds]

/-- Any sorted list whose values avoid `x` splits into the part strictly
below `x` and the part strictly above. -/
theorem sorted_split {x : ℚ} : ∀ {l : List Centroid},
    l.Pairwise (fun a b => a.value ≤ b.value) → (∀ c ∈ l, c.value ≠ x) →
    ∃ A B, l = A ++ B ∧ (∀ a ∈ A, a.value < x) ∧ ∀ b ∈ B, x < b.value
  | [] => fun _ _ => ⟨[], [], rfl, by simp, by simp⟩
  | c :: l' => by
    intro hs hx
    have hs1 := List.pairwise_cons.1 hs
    rcases lt_trichotomy c.value x with h | h | h
    · obtain ⟨A, B, hdec, hA, hB⟩ :=
        sorted_split hs1.2 (fun d hd => hx d (List.mem_cons.2 (Or.inr hd)))
      refine ⟨c :: A, B, by rw [List.cons_append, hdec], ?_, hB⟩
      intro a ha
      rcases List.mem_cons.1 ha with h1 | h1
      · exact h1 ▸ h
      · exact hA a h1
    · exact absurd h (hx c (by simp))
    · refine ⟨[], c :: l', rfl, by simp, ?_⟩
      intro b hb
      rcases List.mem_cons.1 hb with h1 | h1
      · exact h1 ▸ h
      · exact lt_of_lt_of_le h (hs1.1 b h1)

/-- Insertion of a fresh value lands between the strictly-smaller prefix and
the strictly-larger suffix. -/
theorem insertC_fresh (x k : ℚ) : ∀ (A B : List Centroid),
    (∀ a ∈ A, a.value < x) → (∀ b ∈ B, x < b.value) →
    insertC ⟨x, k⟩ (A ++ B) = A ++ ⟨x, k⟩ :: B
  | [], [] => fun _ _ => rfl
  | [], b :: B' => by
    intro _ hB
    simp only [List.nil_append, insertC, if_pos (hB b (by simp))]
  | a :: A', B => by
    intro hA hB
    have ha := hA a (by simp)
    have h1 : ¬ x < a.value := not_lt.2 (le_of_lt ha)
    have h2 : ¬ x = a.value := ne_of_gt ha
    simp only [List.cons_append, insertC, if_neg h1, if_neg h2, List.append_eq]
    rw [insertC_fresh x k A' B (fun y hy => hA y (by simp [hy])) hB]

/-- Insertion at a value already present (first occurrence after a
strictly-smaller prefix) bumps that centroid's count. -/
theorem insertC_at_eq (x k c0 : ℚ) : ∀ (P B : List Centroid),
    (∀ a ∈ P, a.value < x) →
    insertC ⟨x, k⟩ (P ++ ⟨x, c0⟩ :: B) = P ++ ⟨x, c0 + k⟩ :: B
  | [], B => by
    intro _
    simp only [List.nil_append, insertC, lt_self_iff_false, if_false, if_pos]
  | a :: P', B => by
    intro hP
    have ha := hP a (by simp)
    have h1 : ¬ x < a.value := not_lt.2 (le_of_lt ha)
    have h2 : ¬ x = a.value := ne_of_gt ha
    simp only [List.cons_append, insertC, if_neg h1, if_neg h2, List.append_eq]
    rw [insertC_at_eq x k c0 P' B (fun y hy => hP y (by simp [hy]))]

/-- The length of an insertion does not depend on the inserted count. -/
theorem insertC_length_indep (x a b : ℚ) : ∀ l : List Centroid,
    (insertC ⟨x, a⟩ l).length = (insertC ⟨x, b⟩ l).length
  | [] => rfl
  | d :: ds => by
    simp only [insertC]
    split
    · rfl
    · split
      · rfl
      · simp only [List.length_cons, insertC_length_indep x a b ds]

/-- Inserting a value already present in a sorted list does not change the
length. -/
theorem insertC_length_of_value_mem (x k : ℚ) : ∀ l : List Centroid,
    l.Pairwise (fun a b => a.value ≤ b.value) → (∃ c ∈ l, c.value = x) →
    (insertC ⟨x, k⟩ l).length = l.length
  | [] => by rintro _ ⟨c, hc, _⟩; simp at hc
  | d :: ds => by
    rintro hs ⟨c, hc, hcx⟩
    have hs1 := List.pairwise_cons.1 hs
    simp only [insertC]
    split
    · rename_i hlt
      exfalso
      rcases List.mem_cons.1 hc with h | h
      · exact absurd (h ▸ hcx) (ne_of_gt hlt)
      · exact absurd (hcx ▸ hs1.1 c h) (not_le.2 hlt)
    · split
      · rfl
      · rename_i hlt heq
        rcases List.mem_cons.1 hc with h | h
        · exact absurd (h ▸ hcx).symm heq
        · simp only [List.length_cons,
            insertC_length_of_value_mem x k ds hs1.2 ⟨c, h, hcx⟩]

/-- Merging a fresh-value singleton into a neighbor on the left, then merging
another singleton at the same value, is one merged insertion. -/
theorem mergePair_assoc_left (p : Centroid) (x c1 c2 : ℚ) (hp : 0 < p.count)
    (h1 : 0 < c1) (h2 : 0 ≤ c2) :
    mergePair (mergePair p ⟨x, c1⟩) ⟨x, c2⟩ = mergePair p ⟨x, c1 + c2⟩ := by
  simp only [mergePair, Centroid.mk.injEq]
  constructor
  · have hd : p.count + c1 ≠ 0 := by positivity
    have hd2 : p.count + c1 + c2 ≠ 0 := by positivity
    have hd3 : p.count + (c1 + c2) ≠ 0 := by positivity
    field_simp
    ring
  · ring

/-- Mirror image of `mergePair_assoc_left` for a neighbor on the right. -/
theorem mergePair_assoc_right (q : Centroid) (x c1 c2 : ℚ) (hq : 0 < q.count)
    (h1 : 0 < c1) (h2 : 0 ≤ c2) :
    mergePair ⟨x, c2⟩ (mergePair ⟨x, c1⟩ q) = mergePair ⟨x, c2 + c1⟩ q := by
  simp only [mergePair, Centroid.mk.injEq]
  constructor
  · have hd : c1 + q.count ≠ 0 := by positivity
    have hd2 : c2 + (c1 + q.count) ≠ 0 := by positivity
    have hd3 : c2 + c1 + q.count ≠ 0 := by positivity
    field_simp
    ring
  · ring

theorem mergePair_value_lt {c d : Centroid} (h : c.value < d.value)
    (hc : 0 < c.count) (hd : 0 < d.count) : (mergePair c d).value < d.value := by
  rw [mergePair, div_lt_iff₀ (by linarith)]
  nlinarith

theorem lt_mergePair_value {c d : Centroid} (h : c.value < d.value)
    (hc : 0 < c.count) (hd : 0 < d.count) : c.value < (mergePair c d).value := by
  rw [mergePair, lt_div_iff₀ (by linarith)]
  nlinarith

/-- Chain conditions on values transport along lists with equal value maps. -/
theorem chain'_value_congr {P : ℚ → ℚ → Prop} {l₁ l₂ : List Centroid}
    (h : l₁.map Centroid.value = l₂.map Centroid.value) :
    List.Chain' (fun a b => P a.value b.value) l₁ ↔
      List.Chain' (fun a b => P a.value b.value) l₂ := by
  rw [← List.chain'_map (f := Centroid.value) (R := P),
    ← List.chain'_map (f := Centroid.value) (R := P), h]

/-- After the overflow merge collapses the fresh singleton `(x,1)` into its
right neighbor `q`, inserting another centroid at `x` and overflow-merging
again collapses it into the same combined centroid. -/
theorem second_merge_right (A : List Centroid) (x : ℚ) (q : Centroid)
    (Y : List Centroid) (k2 : ℚ) (hk2 : 0 < k2) (hq : x < q.value) (hqc : 0 < q.count)
    (hsortB : (q :: Y).Pairwise (fun a b => a.value ≤ b.value))
    (hchain : List.Chain'
      (fun a b => |q.value - x| < |b.value - a.value|) (A ++ [⟨x, 1⟩]))
    (hafter : ∀ γ ∈ gapsL (q :: Y), |q.value - x| ≤ γ) :
    mergeClosest (A ++ ⟨x, k2⟩ :: mergePair ⟨x, 1⟩ q :: Y) =
      A ++ mergePair ⟨x, k2 + 1⟩ q :: Y := by
  have hg : (0 : ℚ) < q.value - x := by linarith
  have habs : |q.value - x| = q.value - x := abs_of_pos hg
  have hy1l : x < (mergePair ⟨x, 1⟩ q).value :=
    lt_mergePair_value (c := ⟨x, 1⟩) hq one_pos hqc
  have hy1r : (mergePair ⟨x, 1⟩ q).value < q.value :=
    mergePair_value_lt (c := ⟨x, 1⟩) hq one_pos hqc
  have hgp : |(mergePair ⟨x, 1⟩ q).value - (⟨x, k2⟩ : Centroid).value| =
      (mergePair ⟨x, 1⟩ q).value - x := abs_of_pos (by simp only; linarith)
  have hlt : |(mergePair ⟨x, 1⟩ q).value - (⟨x, k2⟩ : Centroid).value| <
      |q.value - x| := by
    rw [hgp, habs]
    linarith
  rw [mergeClosest_at A ⟨x, k2⟩ (mergePair ⟨x, 1⟩ q) Y ?hch ?haf,
    mergePair_assoc_right q x 1 k2 hqc one_pos (le_of_lt hk2)]
  case hch =>
    have h1 : List.Chain'
        (fun a b => |q.value - x| < |b.value - a.value|) (A ++ [⟨x, k2⟩]) :=
      (chain'_value_congr (P := fun u v => |q.value - x| < |v - u|) (by simp)).1 hchain
    exact h1.imp fun _ _ hab => lt_trans hlt hab
  case haf =>
    intro γ hγ
    cases Y with
    | nil => simp [gapsL_singleton] at hγ
    | cons y Y' =>
      rw [gapsL_cons2] at hγ
      have hqy : q.value ≤ y.value := (List.pairwise_cons.1 hsortB).1 y (by simp)
      rcases List.mem_cons.1 hγ with h | h
      · have h1 := hafter |y.value - q.value| (by rw [gapsL_cons2]; simp)
        rw [habs] at h1
        have h2 : |y.value - q.value| = y.value - q.value := abs_of_nonneg (by linarith)
        rw [h2] at h1
        rw [h, hgp]
        have h3 : |y.value - (mergePair ⟨x, 1⟩ q).value| =
            y.value - (mergePair ⟨x, 1⟩ q).value := abs_of_nonneg (by linarith)
        rw [h3]
        linarith
      · have h1 := hafter γ (by rw [gapsL_cons2]; simp [h])
        rw [hgp]
        rw [habs] at h1
        linarith

/-- Mirror image of `second_merge_right`: the fresh singleton collapsed into
its left neighbor `p`, and a further insertion at `x` collapses into the same
combined centroid. -/
theorem second_merge_left (X : List Centroid) (p : Centroid) (x : ℚ)
    (B : List Centroid) (k2 : ℚ) (hk2 : 0 < k2) (hp : p.value < x) (hpc : 0 < p.count)
    (hB : ∀ b ∈ B, x < b.value)
    (hsortA : (X ++ [p]).Pairwise (fun a b => a.value ≤ b.value))
    (hchain : List.Chain'
      (fun a b => |x - p.value| < |b.value - a.value|) (X ++ [p]))
    (hafter : ∀ γ ∈ gapsL ((⟨x, 1⟩ : Centroid) :: B), |x - p.value| ≤ γ) :
    mergeClosest (X ++ mergePair p ⟨x, 1⟩ :: ⟨x, k2⟩ :: B) =
      X ++ mergePair p ⟨x, 1 + k2⟩ :: B := by
  have hg : (0 : ℚ) < x - p.value := by linarith
  have habs : |x - p.value| = x - p.value := abs_of_pos hg
  have hy1l : p.value < (mergePair p ⟨x, 1⟩).value :=
    lt_mergePair_value (d := ⟨x, 1⟩) hp hpc one_pos
  have hy1r : (mergePair p ⟨x, 1⟩).value < x :=
    mergePair_value_lt (d := ⟨x, 1⟩) hp hpc one_pos
  have hgp : |(⟨x, k2⟩ : Centroid).value - (mergePair p ⟨x, 1⟩).value| =
      x - (mergePair p ⟨x, 1⟩).value := abs_of_pos (by simp only; linarith)
  have hlt : |(⟨x, k2⟩ : Centroid).value - (mergePair p ⟨x, 1⟩).value| <
      |x - p.value| := by
    rw [hgp, habs]
    linarith
  rw [mergeClosest_at X (mergePair p ⟨x, 1⟩) ⟨x, k2⟩ B ?hch ?haf,
    mergePair_assoc_left p x 1 k2 hpc one_pos (le_of_lt hk2)]
  case hch =>
    rcases List.chain'_append.1 hchain with ⟨hX, _, hlink⟩
    refine List.chain'_append.2 ⟨hX.imp fun _ _ hab => lt_trans hlt hab, by simp, ?_⟩
    intro a ha b hb
    simp only [List.head?_cons, Option.mem_def, Option.some.injEq] at hb
    subst hb
    have hlk := hlink a ha p (by simp)
    have hax : a.value ≤ p.value := by
      rcases List.pairwise_append.1 hsortA with ⟨_, _, hcross⟩
      exact hcross a (List.mem_of_mem_getLast? ha) p (by simp)
    have h2 : |p.value - a.value| = p.value - a.value := abs_of_nonneg (by linarith)
    rw [h2, habs] at hlk
    have h3 : |(mergePair p ⟨x, 1⟩).value - a.value| =
        (mergePair p ⟨x, 1⟩).value - a.value := abs_of_nonneg (by linarith)
    rw [hgp, h3]
    linarith
  case haf =>
    intro γ hγ
    cases B with
    | nil => simp [gapsL_singleton] at hγ
    | cons b B' =>
      have hxb : x < b.value := hB b (by simp)
      have h1 := hafter _ (by rw [gapsL_cons2]; exact List.mem_cons.2 (Or.inl rfl))
      have h1' : |b.value - (⟨x, 1⟩ : Centroid).value| = b.value - x :=
        abs_of_nonneg (by simp only; linarith)
      rw [h1', habs] at h1
      rw [gapsL_cons2] at hγ
      rcases List.mem_cons.1 hγ with h | h
      · rw [h, hgp]
        have h3 : |b.value - (⟨x, k2⟩ : Centroid).value| = b.value - x :=
          abs_of_nonneg (by simp only; linarith)
        rw [h3]
        linarith
      · have h2 := hafter γ (by rw [gapsL_cons2]; simp [h])
        rw [hgp]
        rw [habs] at h2
        linarith

/-- Position of a distinguished element relative to a distinguished adjacent
pair in two decompositions of the same list: the pair lies left of the
element, immediately left, immediately right, or right of it. -/
theorem append_cons_split {α : Type _} {A B X Y : List α} {c p q : α}
    (h : A ++ c :: B = X ++ p :: q :: Y) :
    (∃ A2, A = X ++ p :: q :: A2 ∧ Y = A2 ++ c :: B) ∨
      (A = X ++ [p] ∧ q = c ∧ Y = B) ∨
      (X = A ∧ p = c ∧ B = q :: Y) ∨
      ∃ B1, X = A ++ c :: B1 ∧ B = B1 ++ p :: q :: Y := by
  rcases List.append_eq_append_iff.1 h with ⟨a', h1, h2⟩ | ⟨c', h1, h2⟩
  · cases a' with
    | nil =>
      rw [List.append_nil] at h1
      injection h2 with h3 h4
      exact Or.inr (Or.inr (Or.inl ⟨h1, h3.symm, h4⟩))
    | cons a₀ as =>
      injection h2 with h3 h4
      refine Or.inr (Or.inr (Or.inr ⟨as, ?_, h4⟩))
      rw [h1, h3]
  · cases c' with
    | nil =>
      rw [List.append_nil] at h1
      injection h2 with h3 h4
      exact Or.inr (Or.inr (Or.inl ⟨h1.symm, h3, h4.symm⟩))
    | cons u cs =>
      injection h2 with h3 h4
      cases cs with
      | nil =>
        injection h4 with h5 h6
        refine Or.inr (Or.inl ⟨?_, h5, h6⟩)
        rw [h1, h3]
      | cons v cs' =>
        injection h4 with h5 h6
        refine Or.inl ⟨cs', ?_, h6⟩
        rw [h1, h3, h5]

/-- One peeled step of `AddMany` on a well-formed within-capacity sketch:
inserting a centroid of count `n+1` at once leaves the same state as one
`Add` followed by inserting a centroid of count `n`. -/
theorem addMany_succ (l : List Centroid) (cap : ℕ) (hwf : WFL l)
    (hlen : l.length ≤ cap) (hcap : 1 ≤ cap) (x : ℚ) (n : ℕ) (hn : 1 ≤ n) :
    addMany ⟨l, cap⟩ x (n + 1) = addMany (add ⟨l, cap⟩ x) x n := by
  have hnq : (0 : ℚ) < (n : ℚ) := by exact_mod_cast Nat.lt_of_lt_of_le Nat.zero_lt_one hn
  have hc1 : ((n + 1 : ℕ) : ℚ) = (n : ℚ) + 1 := by push_cast; ring
  have hcast2 : (⟨x, ((n + 1 : ℕ) : ℚ)⟩ : Centroid) = ⟨x, 1 + (n : ℚ)⟩ := by
    rw [Centroid.mk.injEq]
    exact ⟨rfl, by push_cast; ring⟩
  simp only [addMany, add, Sketch.mk.injEq, and_true]
  by_cases hov : (insertC ⟨x, (1 : ℚ)⟩ l).length ≤ cap
  · have hov1 : overflow cap (insertC ⟨x, (1 : ℚ)⟩ l) = insertC ⟨x, (1 : ℚ)⟩ l := by
      unfold overflow
      rw [if_neg (not_lt.2 hov)]
    rw [hov1, insertC_add x (n : ℚ) 1 l, hc1]
  · push_neg at hov
    have hfresh : ∀ c ∈ l, c.value ≠ x := by
      intro c hc hcx
      have h := insertC_length_of_value_mem x 1 l hwf.1 ⟨c, hc, hcx⟩
      omega
    obtain ⟨A, B, rfl, hA, hB⟩ := sorted_split hwf.1 hfresh
    have hcnt : ∀ c ∈ A ++ B, (1 : ℚ) ≤ c.count := hwf.2
    have hins1 : insertC ⟨x, (1 : ℚ)⟩ (A ++ B) = A ++ ⟨x, 1⟩ :: B :=
      insertC_fresh x 1 A B hA hB
    have hlab : A.length + B.length = cap := by
      have h1 : (insertC ⟨x, (1 : ℚ)⟩ (A ++ B)).length = A.length + B.length + 1 := by
        rw [hins1]
        simp only [List.length_append, List.length_cons]
        omega
      have h2 : (A ++ B).length = A.length + B.length := List.length_append A B
      omega
    obtain ⟨X, p, q, Y, hdec, hmc, hchain, hafter⟩ :=
      mergeClosest_decomp (A ++ ⟨x, 1⟩ :: B) (by simp; omega)
    have hovL : overflow cap (insertC ⟨x, ((n + 1 : ℕ) : ℚ)⟩ (A ++ B)) =
        mergeClosest (A ++ ⟨x, ((n + 1 : ℕ) : ℚ)⟩ :: B) := by
      rw [insertC_fresh x _ A B hA hB]
      unfold overflow
      rw [if_pos (by simp; omega)]
    have hovR : overflow cap (insertC ⟨x, (1 : ℚ)⟩ (A ++ B)) = X ++ mergePair p q :: Y := by
      rw [hins1]
      unfold overflow
      rw [if_pos (by simp; omega), hmc]
    rw [hovL, hovR]
    rcases append_cons_split hdec with ⟨A2, hA', hY⟩ | ⟨hA', hq, hY⟩ |
      ⟨hX, hp, hB'⟩ | ⟨B1, hX, hB'⟩
    · -- the merged pair lies entirely inside `A`
      subst hA' hY
      have hpx : p.value < x := hA p (by simp)
      have hqx : q.value < x := hA q (by simp)
      have hpc : (0 : ℚ) < p.count := lt_of_lt_of_le one_pos (hcnt p (by simp))
      have hqc : (0 : ℚ) < q.count := lt_of_lt_of_le one_pos (hcnt q (by simp))
      have hpq : p.value ≤ q.value := by
        have hPA : (X ++ p :: q :: A2).Pairwise (fun a b => a.value ≤ b.value) :=
          (List.pairwise_append.1 hwf.1).1
        have h := (List.pairwise_append.1 hPA).2.1
        exact (List.pairwise_cons.1 h).1 q (by simp)
      have hmpx : (mergePair p q).value < x :=
        lt_of_le_of_lt (mergePair_value_le hpq hpc hqc) hqx
      have hinsR : insertC ⟨x, (n : ℚ)⟩ (X ++ mergePair p q :: (A2 ++ ⟨x, 1⟩ :: B)) =
          (X ++ mergePair p q :: A2) ++ ⟨x, 1 + (n : ℚ)⟩ :: B := by
        rw [show X ++ mergePair p q :: (A2 ++ (⟨x, 1⟩ : Centroid) :: B) =
          (X ++ mergePair p q :: A2) ++ (⟨x, 1⟩ : Centroid) :: B by simp]
        refine insertC_at_eq x (n : ℚ) 1 (X ++ mergePair p q :: A2) B ?_
        intro a ha
        rcases List.mem_append.1 ha with h | h
        · exact hA a (List.mem_append.2 (Or.inl h))
        · rcases List.mem_cons.1 h with h1 | h1
          · exact h1 ▸ hmpx
          · exact hA a (by simp [h1])
      rw [hinsR]
      have hlenR : ((X ++ mergePair p q :: A2) ++ ⟨x, 1 + (n : ℚ)⟩ :: B).length ≤ cap := by
        simp only [List.length_append, List.length_cons] at hlab ⊢
        omega
      rw [show overflow cap ((X ++ mergePair p q :: A2) ++ (⟨x, 1 + (n : ℚ)⟩ : Centroid) :: B) =
        (X ++ mergePair p q :: A2) ++ (⟨x, 1 + (n : ℚ)⟩ : Centroid) :: B from by
          unfold overflow; rw [if_neg (not_lt.2 hlenR)]]
      have hafterL : ∀ γ ∈ gapsL (q :: (A2 ++ (⟨x, ((n + 1 : ℕ) : ℚ)⟩ : Centroid) :: B)),
          |q.value - p.value| ≤ γ := by
        have hg : gapsL (q :: (A2 ++ (⟨x, ((n + 1 : ℕ) : ℚ)⟩ : Centroid) :: B)) =
            gapsL (q :: (A2 ++ (⟨x, 1⟩ : Centroid) :: B)) := gapsL_congr (by simp)
        intro γ hγ
        exact hafter γ (hg ▸ hγ)
      rw [show (X ++ p :: q :: A2) ++ (⟨x, ((n + 1 : ℕ) : ℚ)⟩ : Centroid) :: B =
        X ++ p :: q :: (A2 ++ (⟨x, ((n + 1 : ℕ) : ℚ)⟩ : Centroid) :: B) by simp]
      rw [mergeClosest_at X p q _ hchain hafterL]
      rw [show X ++ mergePair p q :: (A2 ++ (⟨x, ((n + 1 : ℕ) : ℚ)⟩ : Centroid) :: B) =
        (X ++ mergePair p q :: A2) ++ (⟨x, ((n + 1 : ℕ) : ℚ)⟩ : Centroid) :: B by simp]
      rw [hcast2]
    · -- the merged pair is the last element of `A` and the fresh singleton
      subst hA' hq hY
      have hpx : p.value < x := hA p (by simp)
      have hpc : (0 : ℚ) < p.count := lt_of_lt_of_le one_pos (hcnt p (by simp))
      have hsortA : (X ++ [p]).Pairwise (fun a b => a.value ≤ b.value) :=
        (List.pairwise_append.1 hwf.1).1
      have hmpv : (mergePair p ⟨x, 1⟩).value < x :=
        mergePair_value_lt (d := ⟨x, 1⟩) hpx hpc one_pos
      have hinsR : insertC ⟨x, (n : ℚ)⟩ (X ++ mergePair p ⟨x, 1⟩ :: Y) =
          (X ++ [mergePair p ⟨x, 1⟩]) ++ ⟨x, (n : ℚ)⟩ :: Y := by
        rw [show X ++ mergePair p ⟨x, 1⟩ :: Y = (X ++ [mergePair p ⟨x, 1⟩]) ++ Y by simp]
        refine insertC_fresh x (n : ℚ) (X ++ [mergePair p ⟨x, 1⟩]) Y ?_ hB
        intro a ha
        rcases List.mem_append.1 ha with h | h
        · exact hA a (List.mem_append.2 (Or.inl h))
        · rcases List.mem_singleton.1 h with h1
          exact h1 ▸ hmpv
      rw [hinsR]
      have hlenR : cap < ((X ++ [mergePair p ⟨x, 1⟩]) ++ ⟨x, (n : ℚ)⟩ :: Y).length := by
        simp only [List.length_append, List.length_cons, List.length_singleton] at hlab ⊢
        omega
      rw [show overflow cap ((X ++ [mergePair p ⟨x, 1⟩]) ++ (⟨x, (n : ℚ)⟩ : Centroid) :: Y) =
        mergeClosest ((X ++ [mergePair p ⟨x, 1⟩]) ++ (⟨x, (n : ℚ)⟩ : Centroid) :: Y) from by
          unfold overflow; rw [if_pos hlenR]]
      rw [show (X ++ [mergePair p ⟨x, 1⟩]) ++ (⟨x, (n : ℚ)⟩ : Centroid) :: Y =
        X ++ mergePair p ⟨x, 1⟩ :: (⟨x, (n : ℚ)⟩ : Centroid) :: Y by simp]
      rw [second_merge_left X p x Y (n : ℚ) hnq hpx hpc hB hsortA hchain hafter]
      have hafterL : ∀ γ ∈ gapsL ((⟨x, ((n + 1 : ℕ) : ℚ)⟩ : Centroid) :: Y),
          |x - p.value| ≤ γ := by
        have hg : gapsL ((⟨x, ((n + 1 : ℕ) : ℚ)⟩ : Centroid) :: Y) =
            gapsL ((⟨x, 1⟩ : Centroid) :: Y) := gapsL_congr (by simp)
        intro γ hγ
        exact hafter γ (hg ▸ hγ)
      rw [show (X ++ [p]) ++ (⟨x, ((n + 1 : ℕ) : ℚ)⟩ : Centroid) :: Y =
        X ++ p :: (⟨x, ((n + 1 : ℕ) : ℚ)⟩ : Centroid) :: Y by simp]
      rw [mergeClosest_at X p ⟨x, ((n + 1 : ℕ) : ℚ)⟩ Y hchain hafterL]
      rw [hcast2]
    · -- the merged pair is the fresh singleton and the head of `B`
      subst hX hp hB'
      have hqv : x < q.value := hB q (by simp)
      have hqc : (0 : ℚ) < q.count := lt_of_lt_of_le one_pos (hcnt q (by simp))
      have hsortB : (q :: Y).Pairwise (fun a b => a.value ≤ b.value) :=
        (List.pairwise_append.1 hwf.1).2.1
      have hmpv : x < (mergePair ⟨x, 1⟩ q).value :=
        lt_mergePair_value (c := ⟨x, 1⟩) hqv one_pos hqc
      have hinsR : insertC ⟨x, (n : ℚ)⟩ (X ++ mergePair ⟨x, 1⟩ q :: Y) =
          X ++ ⟨x, (n : ℚ)⟩ :: mergePair ⟨x, 1⟩ q :: Y := by
        refine insertC_fresh x (n : ℚ) X (mergePair ⟨x, 1⟩ q :: Y) hA ?_
        intro b hb
        rcases List.mem_cons.1 hb with h | h
        · exact h ▸ hmpv
        · exact hB b (by simp [h])
      rw [hinsR]
      have hlenR : cap < (X ++ (⟨x, (n : ℚ)⟩ : Centroid) :: mergePair ⟨x, 1⟩ q :: Y).length := by
        simp only [List.length_append, List.length_cons] at hlab ⊢
        omega
      rw [show overflow cap (X ++ (⟨x, (n : ℚ)⟩ : Centroid) :: mergePair ⟨x, 1⟩ q :: Y) =
        mergeClosest (X ++ (⟨x, (n : ℚ)⟩ : Centroid) :: mergePair ⟨x, 1⟩ q :: Y) from by
          unfold overflow; rw [if_pos hlenR]]
      rw [second_merge_right X x q Y (n : ℚ) hnq hqv hqc hsortB hchain hafter]
      have hchainL : List.Chain' (fun a b => |q.value - x| < |b.value - a.value|)
          (X ++ [⟨x, ((n + 1 : ℕ) : ℚ)⟩]) :=
        (chain'_value_congr (P := fun u v => |q.value - x| < |v - u|) (by simp)).1 hchain
      rw [mergeClosest_at X ⟨x, ((n + 1 : ℕ) : ℚ)⟩ q Y hchainL hafter, hc1]
    · -- the merged pair lies entirely inside `B`
      subst hX hB'
      have hinsR : insertC ⟨x, (n : ℚ)⟩ ((A ++ ⟨x, 1⟩ :: B1) ++ mergePair p q :: Y) =
          A ++ ⟨x, 1 + (n : ℚ)⟩ :: (B1 ++ mergePair p q :: Y) := by
        rw [show (A ++ (⟨x, 1⟩ : Centroid) :: B1) ++ mergePair p q :: Y =
          A ++ (⟨x, 1⟩ : Centroid) :: (B1 ++ mergePair p q :: Y) by simp]
        exact insertC_at_eq x (n : ℚ) 1 A (B1 ++ mergePair p q :: Y) hA
      rw [hinsR]
      have hlenR : (A ++ (⟨x, 1 + (n : ℚ)⟩ : Centroid) :: (B1 ++ mergePair p q :: Y)).length
          ≤ cap := by
        simp only [List.length_append, List.length_cons] at hlab ⊢
        omega
      rw [show overflow cap (A ++ (⟨x, 1 + (n : ℚ)⟩ : Centroid) :: (B1 ++ mergePair p q :: Y)) =
        A ++ (⟨x, 1 + (n : ℚ)⟩ : Centroid) :: (B1 ++ mergePair p q :: Y) from by
          unfold overflow; rw [if_neg (not_lt.2 hlenR)]]
      have hchainL : List.Chain'
          (fun a b => |q.value - p.value| < |b.value - a.value|)
          ((A ++ (⟨x, ((n + 1 : ℕ) : ℚ)⟩ : Centroid) :: B1) ++ [p]) :=
        (chain'_value_congr (P := fun u v => |q.value - p.value| < |v - u|) (by simp)).1 hchain
      rw [show A ++ (⟨x, ((n + 1 : ℕ) : ℚ)⟩ : Centroid) :: (B1 ++ p :: q :: Y) =
        (A ++ (⟨x, ((n + 1 : ℕ) : ℚ)⟩ : Centroid) :: B1) ++ p :: q :: Y by simp]
      rw [mergeClosest_at (A ++ (⟨x, ((n + 1 : ℕ) : ℚ)⟩ : Centroid) :: B1) p q Y hchainL hafter]
      rw [show (A ++ (⟨x, ((n + 1 : ℕ) : ℚ)⟩ : Centroid) :: B1) ++ mergePair p q :: Y =
        A ++ (⟨x, ((n + 1 : ℕ) : ℚ)⟩ : Centroid) :: (B1 ++ mergePair p q :: Y) by simp]
      rw [hcast2]

theorem addMany_iterate (x : ℚ) : ∀ (m : ℕ) (s : Sketch), WFL s.items →
    s.items.length ≤ s.capacity → 1 ≤ s.capacity →
    addMany s x (m + 1) = (fun t => add t x)^[m + 1] s
  | 0, s, hwf, hlen, hcap => by
    obtain ⟨l, cap⟩ := s
    simp only [Function.iterate_succ, Function.iterate_zero, Function.comp_apply, id_eq]
    simp only [addMany, add, Nat.zero_add, Nat.cast_one]
  | m + 1, s, hwf, hlen, hcap => by
    obtain ⟨l, cap⟩ := s
    rw [addMany_succ l cap hwf hlen hcap x (m + 1) (by omega)]
    have hwf' : WFL (add ⟨l, cap⟩ x).items := WFL_add hwf x
    have hlen' : (add ⟨l, cap⟩ x).items.length ≤ (add ⟨l, cap⟩ x).capacity := by
      show (overflow cap (insertC ⟨x, 1⟩ l)).length ≤ cap
      exact overflow_length_le hcap (le_trans (insertC_length_le _ _) (by simp at hlen ⊢; omega))
    have hcap' : 1 ≤ (add ⟨l, cap⟩ x).capacity := hcap
    rw [addMany_iterate x m (add ⟨l, cap⟩ x) hwf' hlen' hcap']
    simp only [Function.iterate_succ_apply]

/-- C5: for every well-formed sketch within its capacity (with capacity ≥ 1),
every value `x` and every positive integer `n`, `AddMany(x, n)` leaves the
sketch in the same state as `n` sequential `Add(x)` calls. -/
theorem C5_addMany_equiv (s : Sketch) (hwf : WFL s.items)
    (hlen : s.items.length ≤ s.capacity) (hcap : 1 ≤ s.capacity) (x : ℚ) (n : ℕ)
    (hn : 1 ≤ n) : addMany s x n = (fun t => add t x)^[n] s := by
  obtain ⟨m, rfl⟩ : ∃ m, n = m + 1 := ⟨n - 1, by omega⟩
  exact addMany_iterate x m s hwf hlen hcap

theorem C5_addMany_equiv_witness :
    (WFL ([⟨1, 1⟩, ⟨4, 2⟩] : List Centroid) ∧
        ([⟨1, 1⟩, ⟨4, 2⟩] : List Centroid).length ≤ 2 ∧ 1 ≤ 2 ∧ 1 ≤ 3) ∧
      addMany ⟨[⟨1, 1⟩, ⟨4, 2⟩], 2⟩ 6 3 =
        (fun t => add t 6)^[3] ⟨[⟨1, 1⟩, ⟨4, 2⟩], 2⟩ :=
  have hwf : WFL ([⟨1, 1⟩, ⟨4, 2⟩] : List Centroid) := by
    norm_num [WFL, List.pairwise_cons]
  ⟨⟨hwf, by simp, by decide, by decide⟩,
    C5_addMany_equiv ⟨[⟨1, 1⟩, ⟨4, 2⟩], 2⟩ hwf (by simp) (by decide) 6 3 (by decide)⟩

end Histosketch
